import Mathlib

/-!
Verification of the HuggingFace downloader extension (repo scanner, filename
classifier, acquisition orchestrator, task registry and request handlers).

The Python sources (`hf_downloader.py`, `server_routes.py`) are shallowly
embedded below.  Filenames are modelled as `List Char` (with `String`
wrappers), Python dicts of tensors as functions `String → Option Nat`
(tensor payloads are opaque, modelled by `Nat` identifiers), the process-wide
task registry as association lists, and the asyncio task objects as small
records carrying their observable flags (`done`, cancellation, stored
exception).  External collaborators (the HuggingFace listing/fetch client,
the remote `config.json` lookup, the safetensors codec) are modelled as
explicit oracle parameters, matching the interface the source consumes.
-/

set_option maxRecDepth 4096

namespace HFD

/-- ASCII lower-casing of one character, the fragment of Python's
`str.lower` / `re.IGNORECASE` relevant to the embedded regexes. -/
def lowerChar (c : Char) : Char :=
  match c with
  | 'A' => 'a' | 'B' => 'b' | 'C' => 'c' | 'D' => 'd' | 'E' => 'e' | 'F' => 'f'
  | 'G' => 'g' | 'H' => 'h' | 'I' => 'i' | 'J' => 'j' | 'K' => 'k' | 'L' => 'l'
  | 'M' => 'm' | 'N' => 'n' | 'O' => 'o' | 'P' => 'p' | 'Q' => 'q' | 'R' => 'r'
  | 'S' => 's' | 'T' => 't' | 'U' => 'u' | 'V' => 'v' | 'W' => 'w' | 'X' => 'x'
  | 'Y' => 'y' | 'Z' => 'z'
  | other => other

/-- ASCII upper-casing of one character (Python's `str.upper` fragment). -/
def upperChar (c : Char) : Char :=
  match c with
  | 'a' => 'A' | 'b' => 'B' | 'c' => 'C' | 'd' => 'D' | 'e' => 'E' | 'f' => 'F'
  | 'g' => 'G' | 'h' => 'H' | 'i' => 'I' | 'j' => 'J' | 'k' => 'K' | 'l' => 'L'
  | 'm' => 'M' | 'n' => 'N' | 'o' => 'O' | 'p' => 'P' | 'q' => 'Q' | 'r' => 'R'
  | 's' => 'S' | 't' => 'T' | 'u' => 'U' | 'v' => 'V' | 'w' => 'W' | 'x' => 'X'
  | 'y' => 'Y' | 'z' => 'Z'
  | other => other

/-- The graph of `lowerChar` on the characters it changes (each uppercase
ASCII letter with its lowercase image), used to reason about `lowerChar`
by finite enumeration. -/
def ucPairs : List (Char × Char) :=
  [('A', 'a'), ('B', 'b'), ('C', 'c'), ('D', 'd'), ('E', 'e'), ('F', 'f'),
   ('G', 'g'), ('H', 'h'), ('I', 'i'), ('J', 'j'), ('K', 'k'), ('L', 'l'),
   ('M', 'm'), ('N', 'n'), ('O', 'o'), ('P', 'p'), ('Q', 'q'), ('R', 'r'),
   ('S', 's'), ('T', 't'), ('U', 'u'), ('V', 'v'), ('W', 'w'), ('X', 'x'),
   ('Y', 'y'), ('Z', 'z')]

/-- Lower-case a character list. -/
def toLowerL (l : List Char) : List Char := l.map lowerChar

/-- Upper-case a character list. -/
def toUpperL (l : List Char) : List Char := l.map upperChar

/-- Lower-case a string (ASCII fragment of Python `str.lower`). -/
def lowerStr (s : String) : String := (toLowerL s.toList).asString

/-- The character class `[a-z0-9_]` under `re.IGNORECASE` (the regexes'
word-tail class). -/
def isWordChar (c : Char) : Bool :=
  c.isDigit || c == '_' || ('a' ≤ lowerChar c && lowerChar c ≤ 'z')

/-- Split a character list on a separator character; mirrors Python
`str.split(sep)` for a one-character separator (keeps empty segments). -/
def splitChar (sep : Char) : List Char → List (List Char)
  | [] => [[]]
  | c :: rest =>
    match splitChar sep rest with
    | [] => [[]]
    | seg :: segs => if c = sep then [] :: seg :: segs else (c :: seg) :: segs

/-- `pathlib`'s `Path(p).name`: the last non-empty `/`-separated segment
(trailing slashes are normalised away). -/
def nameOf (l : List Char) : List Char :=
  match (splitChar '/' l).reverse.find? (fun seg => !seg.isEmpty) with
  | some seg => seg
  | none => []

/-- `pathlib`'s suffix rule on a bare file name `n`:
`n[i:]` where `i = n.rfind('.')`, provided `0 < i < len(n)-1`, else empty. -/
def suffixOfName (n : List Char) : List Char :=
  let r := n.reverse
  let k := r.findIdx (fun c => c == '.')
  if k = 0 then [] else if n.length - 1 ≤ k then [] else (r.take (k + 1)).reverse

/-- `pathlib`'s `Path(p).suffix`. -/
def suffixOf (l : List Char) : List Char := suffixOfName (nameOf l)

/-- `pathlib`'s `Path(p).stem`: name with its suffix removed. -/
def stemOf (l : List Char) : List Char :=
  let n := nameOf l
  n.take (n.length - (suffixOfName n).length)

/-- String wrapper for `stemOf`. -/
def stemStr (s : String) : String := (stemOf s.toList).asString

/-- Does `l` end with `sfx` after normalising characters with `norm`?
If so return the part before the suffix. -/
def dropSuffixNorm (norm : Char → Char) (sfx l : List Char) : Option (List Char) :=
  if sfx.length ≤ l.length ∧ (l.drop (l.length - sfx.length)).map norm = sfx then
    some (l.take (l.length - sfx.length))
  else none

/-- Does `l` end (case-insensitively) with `sfx`?  If so return the part
before the suffix.  `sfx` is given lower-cased. -/
def dropSuffixCI (sfx l : List Char) : Option (List Char) :=
  dropSuffixNorm lowerChar sfx l

/-- Does `l` start (case-insensitively) with `pre` (given lower-cased)?
If so return the remainder. -/
def dropPrefixCI (pre l : List Char) : Option (List Char) :=
  if pre.length ≤ l.length ∧ toLowerL (l.take pre.length) = pre then
    some (l.drop pre.length)
  else none

/-- Case-insensitive `str.endswith` test. -/
def endsWithCI (sfx : String) (s : String) : Bool :=
  (dropSuffixCI sfx.toList s.toList).isSome

/-- Numeric value of a digit string, Python's `int` on `\d+` captures
(tolerates leading zeros). -/
def digitsToNat (l : List Char) : Nat :=
  l.foldl (fun a c => a * 10 + (c.toNat - '0'.toNat)) 0

/-- The split-shard matcher, parameterised by a character normaliser
(`lowerChar` for the `re.IGNORECASE` pattern in `scan_repo`, the identity
for the case-sensitive pattern in `_suggest_name`).

Equivalent to a full match of `^(.+?)-(\d+)-of-(\d+)\.safetensors$`:
reading the stem from the right, the shard total `M` is the maximal digit
run just before the extension, it must be preceded by the literal `-of-`,
then the shard index `N` is the maximal digit run before that, preceded by
`-`, and the non-empty base is everything before.  (The lazy `(.+?)` and
the end anchor force exactly this decomposition.)  Returns
`(base, N, M)`. -/
def splitMatchRev (norm : Char → Char) (r : List Char) :
    Option (List Char × List Char × List Char) :=
  let m := r.takeWhile Char.isDigit
  if m.isEmpty then none else
    let r1 := r.drop m.length
    if 4 ≤ r1.length ∧ (r1.take 4).map norm = "-fo-".toList then
      let r2 := r1.drop 4
      let n := r2.takeWhile Char.isDigit
      if n.isEmpty then none else
        match r2.drop n.length with
        | '-' :: baseRev =>
          if baseRev.isEmpty then none
          else some (baseRev.reverse, n.reverse, m.reverse)
        | _ => none
    else none

/-- (Continuation of the split-shard matcher: strip the extension with the
given normaliser, then scan the reversed stem with `splitMatchRev`.) -/
def splitMatchGen (norm : Char → Char) (filename : List Char) :
    Option (List Char × List Char × List Char) :=
  match dropSuffixNorm norm ".safetensors".toList filename with
  | some stem => splitMatchRev norm stem.reverse
  | none => none

/-- `scan_repo`'s split pattern
`re.compile(r"^(.+?)-(\d+)-of-(\d+)\.safetensors$", re.IGNORECASE)`. -/
def splitMatch (filename : List Char) : Option (List Char × List Char × List Char) :=
  splitMatchGen lowerChar filename

/-- `_suggest_name`'s case-sensitive pattern
`r"^(.+?)-\d+-of-\d+\.safetensors$"`. -/
def splitMatchCS (filename : List Char) : Option (List Char × List Char × List Char) :=
  splitMatchGen id filename

/-- Full-string match of the variant alternation of `_split_safetensors_name`
(`(?:fp|bf)\d+[a-z0-9_]*|int\d+|bnb[-_]?4bit|bnb[-_]?8bit|nf4|nvfp4`,
case-insensitive, anchored at the end of the stem by `$`). -/
def tokenFullV (t : List Char) : Bool :=
  let lt := toLowerL t
  (("fp".toList.isPrefixOf lt || "bf".toList.isPrefixOf lt) &&
    (match lt.drop 2 with
     | c :: rest => c.isDigit && rest.all isWordChar
     | [] => false)) ||
  ("int".toList.isPrefixOf lt &&
    (match lt.drop 3 with
     | c :: rest => c.isDigit && rest.all Char.isDigit
     | [] => false)) ||
  (lt = "bnb4bit".toList || lt = "bnb-4bit".toList || lt = "bnb_4bit".toList) ||
  (lt = "bnb8bit".toList || lt = "bnb-8bit".toList || lt = "bnb_8bit".toList) ||
  (lt = "nf4".toList || lt = "nvfp4".toList)

/-- Full-string match of the GGUF quant alternation of `_extract_gguf_quant`
(`(?:q|iq)\d[A-Za-z0-9_]*|(?:f|bf)\d[A-Za-z0-9_]*`, case-insensitive,
anchored at the end of the stem). -/
def tokenFullG (t : List Char) : Bool :=
  let lt := toLowerL t
  let tail1 (l : List Char) : Bool :=
    match l with
    | c :: rest => c.isDigit && rest.all isWordChar
    | [] => false
  ("iq".toList.isPrefixOf lt && tail1 (lt.drop 2)) ||
  ("q".toList.isPrefixOf lt && tail1 (lt.drop 1)) ||
  ("bf".toList.isPrefixOf lt && tail1 (lt.drop 2)) ||
  ("f".toList.isPrefixOf lt && tail1 (lt.drop 1))

/-- Leftmost search for `(?:SEP)(TOKEN)$`: the first position whose character
satisfies `sep` and whose whole remainder satisfies `tokF` wins; returns
(prefix before the separator, separator, token).  This is Python
`re.search` for an end-anchored pattern of that shape. -/
def scanSepToken (sep : Char → Bool) (tokF : List Char → Bool) :
    List Char → Option (List Char × Char × List Char)
  | [] => none
  | c :: rest =>
    if sep c && tokF rest then some ([], c, rest)
    else
      match scanSepToken sep tokF rest with
      | some (b, c1, t) => some (c :: b, c1, t)
      | none => none

/-- The separator class `[._-]` used by `_split_safetensors_name` and
`_split_gguf_name`. -/
def isSepDotUnd (c : Char) : Bool := c == '.' || c == '_' || c == '-'

/-- The separator class `[-_]` used by `_extract_precision`. -/
def isSepDash (c : Char) : Bool := c == '-' || c == '_'

/-- `_split_safetensors_name`: stem plus optional lower-cased variant suffix;
the base is the stem with `[._-]variant` stripped from its end.  Note: the
variant is only lower-cased, underscores are NOT rewritten to hyphens. -/
def splitSafetensorsNameL (filename : List Char) : List Char × Option (List Char) :=
  let stem := stemOf filename
  match scanSepToken isSepDotUnd tokenFullV stem with
  | some (b, _, t) => (b, some (toLowerL t))
  | none => (stem, none)

/-- String wrapper for `_split_safetensors_name`. -/
def splitSafetensorsName (filename : String) : String × Option String :=
  let p := splitSafetensorsNameL filename.toList
  (p.1.asString, p.2.map List.asString)

/-- `_extract_gguf_quant`: `None` unless the filename ends in `.gguf`
(case-insensitively); otherwise the upper-cased trailing quant token of the
stem, if any. -/
def extractGgufQuantL (filename : List Char) : Option (List Char) :=
  if (dropSuffixCI ".gguf".toList filename).isSome then
    match scanSepToken isSepDotUnd tokenFullG (stemOf filename) with
    | some (_, _, t) => some (toUpperL t)
    | none => none
  else none

/-- `_split_gguf_name`: stem plus optional upper-cased quant; the base is
the stem with `[._-]quant` stripped from its end. -/
def splitGgufNameL (filename : List Char) : List Char × Option (List Char) :=
  let stem := stemOf filename
  match extractGgufQuantL filename with
  | none => (stem, none)
  | some q =>
    match scanSepToken isSepDotUnd tokenFullG stem with
    | some (b, _, _) => (b, some q)
    | none => (stem, some q)

/-- Length of the leftmost-position greedy match of `_extract_precision`'s
alternation `(?:fp|bf)\d+[a-z0-9_]*|int\d+|bnb[-_]?4bit|bnb[-_]?8bit|nf4|nvfp4`
against a prefix of the (lower-cased) input, `none` if no alternative
matches at this position. -/
def tokenPfxLen (lt : List Char) : Option Nat :=
  if ("fp".toList.isPrefixOf lt || "bf".toList.isPrefixOf lt) &&
      (match lt.drop 2 with | c :: _ => c.isDigit | [] => false) then
    some (2 + ((lt.drop 2).takeWhile isWordChar).length)
  else if "int".toList.isPrefixOf lt &&
      (match lt.drop 3 with | c :: _ => c.isDigit | [] => false) then
    some (3 + ((lt.drop 3).takeWhile Char.isDigit).length)
  else if "bnb-4bit".toList.isPrefixOf lt || "bnb_4bit".toList.isPrefixOf lt then
    some 8
  else if "bnb4bit".toList.isPrefixOf lt then some 7
  else if "bnb-8bit".toList.isPrefixOf lt || "bnb_8bit".toList.isPrefixOf lt then
    some 8
  else if "bnb8bit".toList.isPrefixOf lt then some 7
  else if "nf4".toList.isPrefixOf lt then some 3
  else if "nvfp4".toList.isPrefixOf lt then some 5
  else none

/-- The prefix of `t` matched by `_extract_precision`'s alternation at this
position (in original case), if any. -/
def tokenPfx (t : List Char) : Option (List Char) :=
  (tokenPfxLen (toLowerL t)).map (fun k => t.take k)

/-- Lower-case and rewrite underscores to hyphens
(`match.group(1).lower().replace("_", "-")`). -/
def dashLower (t : List Char) : List Char :=
  (toLowerL t).map (fun c => if c = '_' then '-' else c)

/-- `_extract_precision`: `re.search` of `[-_](ALTERNATION)` over the whole
filename (NOT anchored at the end, and `.` is not in the separator class);
the leftmost separator position with a token match wins, and the captured
token is lower-cased with underscores rewritten to hyphens. -/
def extractPrecisionL (f : List Char) : Option (List Char) :=
  ((scanSepToken isSepDash (fun t => (tokenPfx t).isSome) f).bind
    (fun r => tokenPfx r.2.2)).map dashLower

/-- String wrapper for `_extract_precision`. -/
def extractPrecision (f : String) : Option String :=
  (extractPrecisionL f.toList).map List.asString

/-- Lexicographic comparison of character lists by code point, Python's
string `<=`. -/
def lexLe : List Char → List Char → Bool
  | [], _ => true
  | _ :: _, [] => false
  | a :: as, b :: bs =>
    if a.toNat < b.toNat then true
    else if b.toNat < a.toNat then false
    else lexLe as bs

/-- Python string `<=`. -/
def strLe (a b : String) : Bool := lexLe a.toList b.toList

/-- Stable insertion into a list sorted by `le`. -/
def insertLe (le : α → α → Bool) (x : α) : List α → List α
  | [] => [x]
  | y :: ys => if le x y then x :: y :: ys else y :: insertLe le x ys

/-- Stable insertion sort, the model of Python's `sorted`. -/
def sortLe (le : α → α → Bool) : List α → List α
  | [] => []
  | x :: xs => insertLe le x (sortLe le xs)

/-- Python `sorted` on strings. -/
def sortStrings (l : List String) : List String := sortLe strLe l

/-- One file's metadata as `scan_repo` records it (`variant` is only set on
non-split safetensors files, `quant` only on GGUF files). -/
structure FileMeta where
  name : String
  size : Nat
  precision : Option String := none
  variant : Option String := none
  quant : Option String := none
deriving DecidableEq, Repr

/-- The per-file classification `scan_repo` performs on a safetensors
filename: the split pattern takes priority; otherwise the variant
classifier runs.  A split file carries `int(match.group(3))` as the shard
total and no variant. -/
inductive STClass where
  | split (base : String) (total : Nat)
  | single (base : String) (variant : Option String)
deriving DecidableEq, Repr

/-- Classify one safetensors filename as `scan_repo` does. -/
def classifySafetensors (filename : String) : STClass :=
  match splitMatch filename.toList with
  | some (b, _, m) => .split b.asString (digitsToNat m)
  | none =>
    let p := splitSafetensorsName filename
    .single p.1 p.2

/-- An accumulating safetensors group (one value of `safetensor_groups`). -/
structure STGroupAcc where
  folder : String
  base_name : String
  files : List FileMeta
  is_split : Bool
  split_info : Option Nat
deriving DecidableEq, Repr

/-- One scan result entry (one dict in `scan_repo`'s result list;
`quant_options` is only present on GGUF entries not safetensors ones,
modelled with `Option`). -/
structure ModelGroup where
  path : String
  files : List FileMeta
  is_split : Bool
  split_info : Option Nat
  file_count : Nat
  total_size : Nat
  suggested_name : String
  precision : Option String
  file_type : String
  quant_options : Option (List String)
  base_name : String
deriving DecidableEq, Repr

/-- `f.split("/")`: folder (`"root"` for a top-level file) and bare
filename. -/
def folderSplit (f : String) : String × String :=
  match (splitChar '/' f.toList).map List.asString with
  | [] => ("root", f)
  | [_] => ("root", f)
  | p :: q :: rest =>
    (String.intercalate "/" ((p :: q :: rest).dropLast),
      (p :: q :: rest).getLastD "")

/-- `folder.split("/")[-1]` (Python `[-1]` on a never-empty split). -/
def lastSeg (s : String) : String :=
  ((splitChar '/' s.toList).map List.asString).getLastD ""

/-- Steps 2-4 of `_suggest_name`'s priority chain (split-base / config
lookup / folder segment / repo name). -/
def suggestNameCont (cfg : String → Option String) (repo_id folder : String)
    (files : List String) (split_info : Option Nat) : String :=
  let fromSplit : Option String :=
    if split_info.isSome then
      match files with
      | [] => none
      | f0 :: _ =>
        match splitMatchCS f0.toList with
        | some (b, _, _) =>
          if folder ≠ "root" then
            match cfg folder with
            | some c => some c
            | none => some b.asString
          else some b.asString
        | none => none
    else none
  match fromSplit with
  | some s => s
  | none =>
    if folder ≠ "root" ∧ folder ≠ "" then
      match cfg folder with
      | some c => c
      | none => lastSeg folder
    else lastSeg repo_id

/-- `_suggest_name`.  The remote `config.json` lookup
(`_get_name_from_config`, an external fetch whose failures are swallowed
and yield `None`) is passed in as the oracle `cfg`.  Priority 1: a root
folder with exactly one file uses that file's stem. -/
def suggestName (cfg : String → Option String) (repo_id folder : String)
    (files : List String) (split_info : Option Nat) : String :=
  match files with
  | [f] =>
    if folder = "root" then stemStr f
    else suggestNameCont cfg repo_id folder files split_info
  | _ => suggestNameCont cfg repo_id folder files split_info

/-- Append `meta` to the group keyed `k`, creating it (at dict-insertion
order, i.e. at the end) from `fresh` when absent: the
`if group_key not in groups: groups[group_key] = ...; groups[key]["files"].append(...)`
idiom. -/
def addToGroups (k : Bool × String × String) (fresh : STGroupAcc) (meta : FileMeta) :
    List ((Bool × String × String) × STGroupAcc) →
      List ((Bool × String × String) × STGroupAcc)
  | [] => [(k, { fresh with files := fresh.files ++ [meta] })]
  | (k1, g) :: rest =>
    if k1 = k then (k1, { g with files := g.files ++ [meta] }) :: rest
    else (k1, g) :: addToGroups k fresh meta rest

/-- Append a GGUF file record under its `(folder, base)` key. -/
def addToGguf (k : String × String) (meta : FileMeta) :
    List ((String × String) × List FileMeta) → List ((String × String) × List FileMeta)
  | [] => [(k, [meta])]
  | (k1, fs) :: rest =>
    if k1 = k then (k1, fs ++ [meta]) :: rest
    else (k1, fs) :: addToGguf k meta rest

/-- State of `scan_repo`'s grouping pass. -/
structure ScanAcc where
  st : List ((Bool × String × String) × STGroupAcc)
  gg : List ((String × String) × List FileMeta)

/-- Process one `(rfilename, size)` listing entry, as the main loop of
`scan_repo` does. -/
def scanStep (acc : ScanAcc) (entry : String × Nat) : ScanAcc :=
  let f := entry.1
  let size := entry.2
  if endsWithCI ".safetensors" f then
    let fs := folderSplit f
    let folder := fs.1
    let filename := fs.2
    match classifySafetensors filename with
    | .split base total =>
      let meta : FileMeta :=
        { name := filename, size := size, precision := extractPrecision filename }
      let fresh : STGroupAcc :=
        { folder := folder, base_name := base, files := [], is_split := true,
          split_info := some total }
      { acc with st := addToGroups (true, folder, base) fresh meta acc.st }
    | .single base variant =>
      let meta : FileMeta :=
        { name := filename, size := size, precision := extractPrecision filename,
          variant := variant }
      let fresh : STGroupAcc :=
        { folder := folder, base_name := base, files := [], is_split := false,
          split_info := none }
      { acc with st := addToGroups (false, folder, base) fresh meta acc.st }
  else if endsWithCI ".gguf" f then
    let fs := folderSplit f
    let folder := fs.1
    let filename := fs.2
    let p := splitGgufNameL filename.toList
    let meta : FileMeta :=
      { name := filename, size := size, quant := p.2.map List.asString }
    { acc with gg := addToGguf (folder, p.1.asString) meta acc.gg }
  else acc

/-- Build one result entry from a safetensors group (the first result loop
of `scan_repo`). -/
def emitST (cfg : String → Option String) (repo_id : String) (g : STGroupAcc) :
    ModelGroup :=
  let files_list := sortLe (fun a b => strLe a.name b.name) g.files
  let file_count := files_list.length
  let total_size :=
    if g.is_split then (files_list.map (·.size)).sum
    else match files_list with | f :: _ => f.size | [] => 0
  let precision_values := (files_list.filterMap (·.precision)).dedup
  let precision :=
    if precision_values.length = 1 then precision_values.head?
    else if 1 < precision_values.length then some "mixed"
    else none
  let suggested_name :=
    if g.is_split then
      suggestName cfg repo_id g.folder (files_list.map (·.name)) g.split_info
    else
      match files_list with
      | [f] => stemStr f.name
      | f :: _ :: _ => if g.base_name ≠ "" then g.base_name else stemStr f.name
      | [] => if g.base_name ≠ "" then g.base_name else "model"
  { path := g.folder, files := files_list, is_split := g.is_split,
    split_info := g.split_info, file_count := file_count,
    total_size := total_size, suggested_name := suggested_name,
    precision := precision, file_type := "safetensors", quant_options := none,
    base_name := g.base_name }

/-- Build one result entry from a GGUF group (the second result loop of
`scan_repo`). -/
def emitGG (cfg : String → Option String) (repo_id : String)
    (k : String × String) (files : List FileMeta) : ModelGroup :=
  let sorted_files := sortLe (fun a b => strLe a.name b.name) files
  let display_size := match sorted_files with | f :: _ => f.size | [] => 0
  let quant_options := sortStrings (files.filterMap (·.quant)).dedup
  { path := k.1, files := sorted_files, is_split := false, split_info := none,
    file_count := files.length, total_size := display_size,
    suggested_name :=
      if k.2 ≠ "" then k.2 else suggestName cfg repo_id k.1 [] none,
    precision := none, file_type := "gguf", quant_options := some quant_options,
    base_name := k.2 }

/-- `scan_repo`, given the remote listing `files_info` (path and size per
file, as `_list_repo_files_info` returns) and the config-lookup oracle. -/
def scanRepo (cfg : String → Option String) (repo_id : String)
    (files_info : List (String × Nat)) : List ModelGroup :=
  let acc := files_info.foldl scanStep ⟨[], []⟩
  acc.st.map (fun p => emitST cfg repo_id p.2) ++
    acc.gg.map (fun p => emitGG cfg repo_id p.1 p.2)

/-- A named-tensor mapping, the model of the dict `safetensors.load_file`
returns and `save_file` consumes; tensor payloads are opaque, modelled by
`Nat` identifiers. -/
def TMap := String → Option Nat

/-- The empty accumulator with which `_merge_files` starts. -/
def emptyTM : TMap := fun _ => none

/-- Python `dict.update`: entries of `new` overwrite entries of `acc`. -/
def updateTM (acc new : TMap) : TMap :=
  fun k => match new k with | some v => some v | none => acc k

/-- The shard-loading loop of `_merge_files`: load each path's mapping from
the tensor file store `tfs` (a missing/corrupt shard raises, aborting the
merge) and fold it into the accumulator with `dict.update`. -/
def mergeLoad (tfs : String → Option TMap) : List String → TMap → Except String TMap
  | [], acc => .ok acc
  | p :: ps, acc =>
    match tfs p with
    | some m => mergeLoad tfs ps (updateTM acc m)
    | none => .error p

/-- The accumulated mapping `_merge_files` builds: shards are processed in
`sorted(file_paths)` order. -/
def mergeFiles (tfs : String → Option TMap) (file_paths : List String) :
    Except String TMap :=
  mergeLoad tfs (sortStrings file_paths) emptyTM

/-- The tensor-container codec's `save`: writes mapping `t` at `path` in
the file store. -/
def saveTensors (tfs : String → Option TMap) (path : String) (t : TMap) :
    String → Option TMap :=
  fun p => if p = path then some t else tfs p

/-- `_merge_files` end to end: accumulate the shard mappings, then
`save_file(tensors, output_path)`; returns the resulting file store. -/
def mergeFilesRun (tfs : String → Option TMap) (file_paths : List String)
    (output_path : String) : Except String (String → Option TMap) :=
  (mergeFiles tfs file_paths).map (saveTensors tfs output_path)

/-- Specification-side description of "last shard wins": the value a key
gets from a list of shards, where a later shard's entry overrides an
earlier one's. -/
def lastShardVal (tfs : String → Option TMap) (k : String) : List String → Option Nat
  | [] => none
  | p :: ps =>
    match lastShardVal tfs k ps with
    | some v => some v
    | none => match tfs p with | some m => m k | none => none

/-- Environment of `download_and_merge`: the external download tool, the
optional auth token, the per-file remote fetch (`hf download`), the local
tensor-file store backing `load_file`, and the filesystem facts the
single-file branch consults. -/
structure DlEnv where
  cliAvailable : Bool
  hfToken : Option String
  fetch : String → String → Except String String
  tensors : String → Option TMap
  targetIsDir : Bool
  symlinkOk : Bool

/-- Result of a successful `download_and_merge`. -/
inductive DlOutcome where
  | merged (outPath : String) (t : TMap)
  | linked (outPath : String)
  | copied (outPath : String)

/-- The output path a `download_and_merge` outcome was placed at. -/
def DlOutcome.path : DlOutcome → String
  | .merged p _ => p
  | .linked p => p
  | .copied p => p

/-- The remote path construction of the download loop. -/
def remotePath (folder f : String) : String :=
  if folder ≠ "root" then folder ++ "/" ++ f else f

/-- The sequential download loop of `download_and_merge`: fetch each file,
collecting cache paths; the first failure aborts the whole operation. -/
def fetchAll (env : DlEnv) (repo folder : String) : List String → Except String (List String)
  | [] => .ok []
  | f :: rest =>
    match env.fetch repo (remotePath folder f) with
    | .ok p => (fetchAll env repo folder rest).map (fun ps => p :: ps)
    | .error e => .error e

/-- `download_and_merge`: CLI probe, (non-fatal auth step elided), download
loop, output extension and path computation, then merge (several files) or
link-or-copy (one file). -/
def downloadAndMerge (env : DlEnv) (repo folder : String) (files : List String)
    (outDir outName : String) : Except String DlOutcome :=
  if ¬ env.cliAvailable then
    .error "HF CLI not found. Please install with: curl -LsSf https://hf.co/cli/install.sh | bash"
  else
    match fetchAll env repo folder files with
    | .error e => .error e
    | .ok paths =>
      let ext0 := match files with
        | f :: _ => (suffixOf f.toList).asString
        | [] => ".safetensors"
      let ext1 := if ext0 = "" then ".safetensors" else ext0
      let ext := lowerStr ext1
      let outPath := outDir ++ "/" ++ outName ++ ext
      if 1 < files.length then
        if ext ≠ ".safetensors" then .error "Only safetensors files can be merged."
        else
          match mergeFiles env.tensors paths with
          | .ok t => .ok (.merged outPath t)
          | .error p => .error ("Error loading shard " ++ p)
      else
        match paths with
        | [] => .error "list index out of range"
        | _ :: _ =>
          if env.targetIsDir then .error ("Output path is a directory: " ++ outPath)
          else if env.symlinkOk then .ok (.linked outPath)
          else .ok (.copied outPath)

/-- The observable flags of an asyncio task handle: `done()`, whether it
finished via cancellation (`Task.exception()` then raises
`CancelledError`), the exception the wrapped coroutine raised (always
`none` for `run_download_task`, which catches all `Exception`s itself),
and whether `cancel()` has been requested but not yet delivered. -/
structure TaskHandle where
  done : Bool
  cancelled : Bool
  exc : Option String
  cancelRequested : Bool
deriving DecidableEq, Repr

/-- One `download_progress` record. -/
structure Progress where
  status : String
  stage : String
  current : Nat
  total : Nat
  message : String
  output_path : Option String := none
deriving DecidableEq, Repr

/-- The module-level registry: `download_tasks` and `download_progress`. -/
structure Registry where
  tasks : List (String × TaskHandle)
  progress : List (String × Progress)
deriving DecidableEq, Repr

/-- Dict write `d[k] = v` (replace in place, or append in insertion
order). -/
def setAssoc (k : String) (v : α) : List (String × α) → List (String × α)
  | [] => [(k, v)]
  | (k1, v1) :: rest =>
    if k1 = k then (k1, v) :: rest else (k1, v1) :: setAssoc k v rest

/-- Dict read. -/
def lookupA (k : String) : List (String × α) → Option α
  | [] => none
  | (k1, v1) :: rest => if k1 = k then some v1 else lookupA k rest

/-- The task-id derivation of `download_model_handler`. -/
def deriveTaskId (repo_id output_name : String) : String :=
  (repo_id.toList.map (fun c => if c = '/' then '_' else c)).asString
    ++ "_" ++ output_name

/-- The record `download_model_handler` installs at task start. -/
def startingRecord : Progress :=
  ⟨"starting", "init", 0, 0, "Initializing download...", none⟩

/-- The record `abort_download_handler` installs on cancellation. -/
def cancelRecord : Progress :=
  ⟨"cancelled", "cancelled", 0, 0, "Download cancelled by user", none⟩

/-- The terminal record `run_download_task` installs when the operation
raised `e` (the exception is caught there, so the asyncio task itself
finishes without an exception). -/
def errorRecord (msg : String) : Progress :=
  ⟨"error", "error", 0, 0, msg, none⟩

/-- The terminal record `run_download_task` installs on success. -/
def completedRecord (output_path : String) : Progress :=
  ⟨"completed", "done", 1, 1, "Successfully saved to " ++ output_path,
    some output_path⟩

/-- Response of `POST /hf_downloader/download`. -/
inductive StartResult where
  | badRequest
  | conflict
  | started (task_id : String)
deriving DecidableEq, Repr

/-- `download_model_handler`: validation, duplicate check
(`task_id in download_tasks and not download_tasks[task_id].done()`), then
creation of the task handle and the `starting` record. -/
def downloadModelHandler (st : Registry) (repo_id _model_path : String)
    (files : List String) (output_name _model_type : String) :
    StartResult × Registry :=
  if repo_id = "" ∨ files = [] ∨ output_name = "" then (.badRequest, st)
  else
    let task_id := deriveTaskId repo_id output_name
    if (match lookupA task_id st.tasks with
        | some t => !t.done
        | none => false) then
      (.conflict, st)
    else
      (.started task_id,
        ⟨setAssoc task_id ⟨false, false, none, false⟩ st.tasks,
         setAssoc task_id startingRecord st.progress⟩)

/-- The terminal effect of `run_download_task`: it installs the completed
or error record and the coroutine returns normally (every `Exception` is
caught in its own `except` block, so the task handle ends done, not
cancelled, with no stored exception). -/
def runDownloadSettle (st : Registry) (task_id : String)
    (outcome : Except String String) : Registry :=
  match outcome with
  | .ok path =>
    ⟨setAssoc task_id ⟨true, false, none, false⟩ st.tasks,
     setAssoc task_id (completedRecord path) st.progress⟩
  | .error e =>
    ⟨setAssoc task_id ⟨true, false, none, false⟩ st.tasks,
     setAssoc task_id (errorRecord e) st.progress⟩

/-- Delivery of a previously requested cancellation: `CancelledError` is
raised at the coroutine's await point, is not caught by its
`except Exception` block, and the handle finishes cancelled; the progress
record is left as the abort handler wrote it. -/
def settleCancelled (st : Registry) (task_id : String) : Registry :=
  ⟨setAssoc task_id ⟨true, true, none, true⟩ st.tasks, st.progress⟩

/-- Response of `GET /hf_downloader/progress/...`.  `raisedCancelled`
models `task.exception()` raising `CancelledError` (a `BaseException`, not
caught by the handler's `except Exception`). -/
inductive GPResult where
  | notFound
  | ok (p : Progress)
  | raisedCancelled
deriving DecidableEq, Repr

/-- `get_progress_handler`. -/
def getProgressHandler (st : Registry) (task_id : String) : GPResult :=
  match lookupA task_id st.progress with
  | none => .notFound
  | some p =>
    match lookupA task_id st.tasks with
    | none => .ok p
    | some t =>
      if t.done then
        if t.cancelled then .raisedCancelled
        else
          match t.exc with
          | some e => .ok { p with status := "error", message := e }
          | none =>
            if p.status ≠ "completed" then .ok { p with status := "completed" }
            else .ok p
      else .ok p

/-- Response of `POST /hf_downloader/abort/...`. -/
inductive AbortResult where
  | notFound
  | success
deriving DecidableEq, Repr

/-- `abort_download_handler`: requests cancellation of a non-done task and
immediately installs the `cancelled` record; aborting a done task is a
no-op that still reports success. -/
def abortDownloadHandler (st : Registry) (task_id : String) :
    AbortResult × Registry :=
  match lookupA task_id st.tasks with
  | none => (.notFound, st)
  | some t =>
    if !t.done then
      (.success,
        ⟨setAssoc task_id { t with cancelRequested := true } st.tasks,
         setAssoc task_id cancelRecord st.progress⟩)
    else (.success, st)

/-- Response of `DELETE /hf_downloader/files`. -/
inductive DeleteResult where
  | badRequest
  | forbidden
  | notFound
  | deleted
deriving DecidableEq, Repr

/-- Render a resolved absolute path (list of components) the way `str` on a
`pathlib.Path` does. -/
def renderPath (comps : List String) : String :=
  "/" ++ String.intercalate "/" comps

/-- Component-wise containment: the resolved path `p` lies inside the
directory `root`.  This is the specification-side meaning of "resolves
inside the managed model-storage root". -/
abbrev insideRoot (root p : List String) : Prop := root <+: p

/-- `delete_file_handler`, after `Path(...).resolve()` has been applied to
both the models directory and the request's filepath (the inputs are the
resolved paths' components); `fileExists` is the filesystem's answer for
the resolved filepath.  The security check is the string test
`str(file_path).startswith(str(models_dir))`. -/
def deleteFileHandler (modelsDir filePath : List String) (fileExists : Bool) :
    DeleteResult :=
  if ¬ (renderPath modelsDir).toList.isPrefixOf (renderPath filePath).toList then
    .forbidden
  else if ¬ fileExists then .notFound
  else .deleted

/-- A download environment with every external step succeeding, used to
evaluate the orchestrator at concrete inputs. -/
def demoEnv : DlEnv :=
  ⟨true, none, fun _ p => .ok p, fun _ => some emptyTM, false, true⟩

/-- A two-shard tensor-file store used to evaluate the merge procedure at a
concrete input: shard `a` maps `x` to `1` and `y` to `7`, shard `b` maps
`x` to `2`. -/
def demoTfs : String → Option TMap := fun p =>
  if p = "a" then some (fun k => if k = "x" then some 1 else if k = "y" then some 7 else none)
  else if p = "b" then some (fun k => if k = "x" then some 2 else none)
  else none

/-- The output extension as the (amended) claim C6 describes it: the
lower-cased extension of the first requested file, falling back to
`.safetensors` when the first file has none. -/
def claimedExt (files : List String) : String :=
  match files with
  | f :: _ =>
    lowerStr (if (suffixOf f.toList).asString = "" then ".safetensors"
              else (suffixOf f.toList).asString)
  | [] => ".safetensors"

/-- The group `scan_repo` builds for the single listing entry
`sub/model.safetensors` (size 5), used to instantiate the non-split
naming rule at a concrete input. -/
def demoGroup : ModelGroup :=
  { path := "sub",
    files := [{ name := "model.safetensors", size := 5, precision := none,
                variant := none, quant := none }],
    is_split := false,
    split_info := none,
    file_count := 1,
    total_size := 5,
    suggested_name := "model",
    precision := none,
    file_type := "safetensors",
    quant_options := none,
    base_name := "model" }

/-- C1: the claim says `deleteFile` fails with 403 exactly when the
resolved filepath lies outside the managed model-storage root.  The code's
check is a plain string-prefix test, so a sibling directory whose name
extends the root's name slips through: with the root resolved to
`/x/models` and the filepath resolved to `/x/models_evil/f` (outside the
root), the handler deletes the file instead of returning 403, contradicting
the handler's own `Security: ensure file is in models directory` comment. -/
theorem c1_delete_prefix_check_bug :
    deleteFileHandler ["x", "models"] ["x", "models_evil", "f"] true =
      DeleteResult.deleted ∧
    ¬ insideRoot ["x", "models"] ["x", "models_evil", "f"] ∧
    DeleteResult.deleted ≠ DeleteResult.forbidden := by
  decide

/-- C2: the claim says a `getProgress` query on a terminal task returns the
record, reconciling to `completed` or to `error` with the failure message.
But `run_download_task` catches the failure itself, so the asyncio task
finishes with `task.exception() = None`, and the handler's
`elif progress["status"] != "completed"` then overwrites the stored
`error` status with `completed`: after a failed download (start, then the
operation fails with "boom"), the stored record has status `error` but the
handler answers with status `completed`. -/
theorem c2_error_status_flipped_to_completed :
    lookupA "u_r_out"
        (runDownloadSettle
          (downloadModelHandler ⟨[], []⟩ "u/r" "root" ["f.safetensors"] "out"
            "checkpoint").2
          "u_r_out" (.error "boom")).progress = some (errorRecord "boom") ∧
    getProgressHandler
        (runDownloadSettle
          (downloadModelHandler ⟨[], []⟩ "u/r" "root" ["f.safetensors"] "out"
            "checkpoint").2
          "u_r_out" (.error "boom")) "u_r_out" =
      GPResult.ok ⟨"completed", "error", 0, 0, "boom", none⟩ := by
  decide

/-- C10: the task-id derivation is deterministic but not injective — the
distinct valid requests `("a/b_c", "x")` and `("a/b", "c_x")` derive the
same task id `a_b_c_x`, so starting the second while the first is in
flight is rejected as a duplicate (409) even though the requests differ. -/
theorem c10_taskid_not_injective :
    deriveTaskId "a/b_c" "x" = "a_b_c_x" ∧
    deriveTaskId "a/b" "c_x" = "a_b_c_x" ∧
    (("a/b_c", "x") ≠ (("a/b", "c_x") : String × String)) ∧
    (downloadModelHandler ⟨[], []⟩ "a/b_c" "sub" ["f.safetensors"] "x"
        "checkpoint").1 = StartResult.started "a_b_c_x" ∧
    (downloadModelHandler
        (downloadModelHandler ⟨[], []⟩ "a/b_c" "sub" ["f.safetensors"] "x"
          "checkpoint").2
        "a/b" "sub" ["g.safetensors"] "c_x" "checkpoint").1 =
      StartResult.conflict := by
  decide

/-- C3 counterexample: the claim says a non-split tensor group in a
non-root folder gets the config-lookup name when the lookup yields one
(else the folder's last segment).  But `scan_repo` never calls
`_suggest_name` for non-split groups: scanning `sub/model.safetensors`
with a config lookup that answers `cfgname` yields suggested name `model`
(the file's stem), not `cfgname` and not `sub`. -/
theorem c3_nonsplit_ignores_config_lookup :
    (scanRepo (fun _ => some "cfgname") "u/r" [("sub/model.safetensors", 5)]).map
        (fun g => (g.suggested_name, g.path, g.is_split, g.file_type)) =
      [("model", "sub", false, "safetensors")] ∧
    (fun _ => (some "cfgname" : Option String)) "sub" = some "cfgname" ∧
    ("model" : String) ≠ "cfgname" ∧ ("model" : String) ≠ "sub" := by
  decide

/-- C5 counterexample: the claim says that once the existing task is in a
terminal state a new start with the same task id succeeds.  But the
duplicate check tests the asyncio handle's `done()`, not the record's
status: after an abort the record is already terminal (`cancelled`) while
the handle is not yet done (cancellation is delivered later), and a
restart is still rejected with 409. -/
theorem c5_cancelled_record_still_conflicts :
    (abortDownloadHandler
        (downloadModelHandler ⟨[], []⟩ "u/r" "root" ["f.safetensors"] "out"
          "checkpoint").2 "u_r_out").1 = AbortResult.success ∧
    lookupA "u_r_out"
        (abortDownloadHandler
          (downloadModelHandler ⟨[], []⟩ "u/r" "root" ["f.safetensors"] "out"
            "checkpoint").2 "u_r_out").2.progress = some cancelRecord ∧
    cancelRecord.status = "cancelled" ∧
    (downloadModelHandler
        (abortDownloadHandler
          (downloadModelHandler ⟨[], []⟩ "u/r" "root" ["f.safetensors"] "out"
            "checkpoint").2 "u_r_out").2
        "u/r" "root" ["f.safetensors"] "out" "checkpoint").1 =
      StartResult.conflict := by
  decide

/-- C6 counterexample: the claim says the output extension equals the
first requested file's extension.  The code lower-cases it: downloading
the single file `m.GGUF` produces `d/n.gguf`, not `d/n.GGUF`. -/
theorem c6_extension_is_lowercased :
    downloadAndMerge demoEnv "r/x" "root" ["m.GGUF"] "d" "n" =
      .ok (.linked "d/n.gguf") ∧
    ("d/n.gguf" : String) ≠ "d/n.GGUF" := by
  exact ⟨rfl, by decide⟩

/-- C8 counterexample: the claim says both the variant extraction and the
precision extraction return the suffix lower-cased with underscores in the
tail converted to hyphens.  `_split_safetensors_name` only lower-cases:
on `model_fp8_e4m3fn.safetensors` it returns the variant `fp8_e4m3fn`
(underscore kept), while `_extract_precision` returns `fp8-e4m3fn`. -/
theorem c8_variant_keeps_underscores :
    splitSafetensorsName "model_fp8_e4m3fn.safetensors" =
      ("model", some "fp8_e4m3fn") ∧
    (some "fp8_e4m3fn" : Option String) ≠ some "fp8-e4m3fn" ∧
    extractPrecision "model_fp8_e4m3fn.safetensors" = some "fp8-e4m3fn" := by
  decide

/-- Reading back a key just written. -/
theorem lookupA_setAssoc_self (k : String) (v : α) (l : List (String × α)) :
    lookupA k (setAssoc k v l) = some v := by
  induction l with
  | nil => simp [setAssoc, lookupA]
  | cons hd t ih =>
    obtain ⟨k1, v1⟩ := hd
    by_cases hk : k1 = k <;> simp [setAssoc, lookupA, hk, ih]

/-- Membership is preserved by sorted insertion. -/
theorem mem_insertLe {le : α → α → Bool} {x y : α} {l : List α} :
    y ∈ insertLe le x l ↔ y = x ∨ y ∈ l := by
  induction l with
  | nil => simp [insertLe]
  | cons hd t ih =>
    by_cases hle : le x hd
    · simp [insertLe, hle]
    · simp [insertLe, hle, ih]
      tauto

/-- Membership is preserved by the insertion sort. -/
theorem mem_sortLe {le : α → α → Bool} {x : α} {l : List α} :
    x ∈ sortLe le l ↔ x ∈ l := by
  induction l with
  | nil => simp [sortLe]
  | cons hd t ih => simp [sortLe, mem_insertLe, ih]

/-- The shard-loading loop under an all-loads-succeed store: it succeeds,
and every key's final value is the last processed shard's entry for it,
falling back to the accumulator. -/
theorem mergeLoad_ok (tfs : String → Option TMap) (l : List String) (acc : TMap)
    (h : ∀ p ∈ l, (tfs p).isSome) :
    ∃ t, mergeLoad tfs l acc = .ok t ∧
      ∀ k, t k = match lastShardVal tfs k l with
        | some v => some v
        | none => acc k := by
  induction l generalizing acc with
  | nil => exact ⟨acc, rfl, fun k => by simp [lastShardVal]⟩
  | cons p ps ih =>
    have hp : (tfs p).isSome := h p (by simp)
    obtain ⟨m, hm⟩ := Option.isSome_iff_exists.mp hp
    obtain ⟨t, ht, htk⟩ := ih (updateTM acc m) (fun q hq => h q (by simp [hq]))
    refine ⟨t, by simp [mergeLoad, hm, ht], fun k => ?_⟩
    rw [htk k]
    simp only [lastShardVal, hm, updateTM]
    cases lastShardVal tfs k ps <;> cases hmk : m k <;> simp [hmk]

/-- A key survives the last-shard-wins union exactly when some shard
carries it. -/
theorem lastShardVal_isSome_iff (tfs : String → Option TMap) (k : String)
    (l : List String) :
    (lastShardVal tfs k l).isSome ↔
      ∃ p ∈ l, ((tfs p).bind (fun m => m k)).isSome := by
  induction l with
  | nil => simp [lastShardVal]
  | cons p ps ih =>
    simp only [lastShardVal]
    cases hps : lastShardVal tfs k ps with
    | some v =>
      simp only [Option.isSome_some, true_iff]
      obtain ⟨q, hq, hqs⟩ := ih.mp (by simp [hps])
      exact ⟨q, List.mem_cons_of_mem _ hq, hqs⟩
    | none =>
      have hbind : (match tfs p with | some m => m k | none => (none : Option Nat)) =
          (tfs p).bind (fun m => m k) := by cases tfs p <;> rfl
      rw [hps] at ih
      simp only [Option.isSome_none, Bool.false_eq_true, false_iff] at ih
      rw [hbind]
      constructor
      · intro hsome
        exact ⟨p, by simp, hsome⟩
      · rintro ⟨q, hq, hqs⟩
        rcases List.mem_cons.mp hq with rfl | hq2
        · exact hqs
        · exact absurd ⟨q, hq2, hqs⟩ ih

/-- C4: merging a non-empty list of loadable shard files loads them in
sorted-path order and writes one container at the output path whose
mapping is the last-shard-wins union of the shard mappings: each key's
value is the one from the last shard (in sorted order) containing it, a
key is present iff some shard carries it, and loading the written output
back from the store yields exactly this mapping. -/
theorem c4_merge_sorted_last_wins (tfs : String → Option TMap)
    (file_paths : List String) (output_path : String)
    (_hne : file_paths ≠ []) (hload : ∀ p ∈ file_paths, (tfs p).isSome) :
    ∃ store t, mergeFilesRun tfs file_paths output_path = .ok store ∧
      store output_path = some t ∧
      (∀ k, t k = lastShardVal tfs k (sortStrings file_paths)) ∧
      (∀ k, (t k).isSome ↔
        ∃ p ∈ file_paths, ((tfs p).bind (fun m => m k)).isSome) := by
  have hs : ∀ p ∈ sortStrings file_paths, (tfs p).isSome := fun p hp =>
    hload p (mem_sortLe.mp hp)
  obtain ⟨t, ht, htk⟩ := mergeLoad_ok tfs (sortStrings file_paths) emptyTM hs
  have htk2 : ∀ k, t k = lastShardVal tfs k (sortStrings file_paths) := by
    intro k
    rw [htk k]
    cases lastShardVal tfs k (sortStrings file_paths) <;> simp [emptyTM]
  refine ⟨saveTensors tfs output_path t, t, ?_, ?_, htk2, ?_⟩
  · simp [mergeFilesRun, mergeFiles, ht, Except.map]
  · simp [saveTensors]
  · intro k
    rw [htk2 k, lastShardVal_isSome_iff]
    constructor
    · rintro ⟨p, hp, hps⟩
      exact ⟨p, mem_sortLe.mp hp, hps⟩
    · rintro ⟨p, hp, hps⟩
      exact ⟨p, mem_sortLe.mpr hp, hps⟩

/-- Witness for C4 at the two-shard store `demoTfs` with the unsorted path
list `["b", "a"]`. -/
theorem c4_merge_sorted_last_wins_witness :
    (["b", "a"] : List String) ≠ [] ∧
    (∀ p ∈ (["b", "a"] : List String), (demoTfs p).isSome) ∧
    ∃ store t, mergeFilesRun demoTfs ["b", "a"] "out" = .ok store ∧
      store "out" = some t ∧
      (∀ k, t k = lastShardVal demoTfs k (sortStrings ["b", "a"])) ∧
      (∀ k, (t k).isSome ↔
        ∃ p ∈ (["b", "a"] : List String), ((demoTfs p).bind (fun m => m k)).isSome) :=
  ⟨by decide, by decide,
    c4_merge_sorted_last_wins demoTfs ["b", "a"] "out" (by decide) (by decide)⟩

/-- C5 (amended): a valid start request is rejected with Conflict exactly
while an asyncio task handle exists for the derived task id and is not yet
done — the record's status is not consulted, so a record already marked
`cancelled` whose operation has not finished still conflicts (see the
counterexample).  When no not-done handle exists the start succeeds,
returning `started taskId` and installing a fresh `starting` record and a
fresh not-done handle. -/
theorem c5_start_conflict_iff_handle_not_done (st : Registry)
    (repo_id model_path : String) (files : List String)
    (output_name model_type : String)
    (h1 : repo_id ≠ "") (h2 : files ≠ []) (h3 : output_name ≠ "") :
    ((downloadModelHandler st repo_id model_path files output_name model_type).1 =
        StartResult.conflict ↔
      ∃ t, lookupA (deriveTaskId repo_id output_name) st.tasks = some t ∧
        t.done = false) ∧
    ((downloadModelHandler st repo_id model_path files output_name model_type).1 ≠
        StartResult.conflict →
      (downloadModelHandler st repo_id model_path files output_name model_type).1 =
        StartResult.started (deriveTaskId repo_id output_name) ∧
      lookupA (deriveTaskId repo_id output_name)
          (downloadModelHandler st repo_id model_path files output_name
            model_type).2.progress = some startingRecord ∧
      lookupA (deriveTaskId repo_id output_name)
          (downloadModelHandler st repo_id model_path files output_name
            model_type).2.tasks = some ⟨false, false, none, false⟩) := by
  cases hl : lookupA (deriveTaskId repo_id output_name) st.tasks with
  | none =>
    simp [downloadModelHandler, h1, h2, h3, hl, lookupA_setAssoc_self]
  | some t =>
    cases ht : t.done with
    | false =>
      simp [downloadModelHandler, h1, h2, h3, hl, ht]
    | true =>
      simp [downloadModelHandler, h1, h2, h3, hl, ht, lookupA_setAssoc_self]

/-- Witness for C5: with an existing handle for `a_b_x` that is done, a
new start of the same derived task id succeeds. -/
theorem c5_start_conflict_iff_handle_not_done_witness :
    (downloadModelHandler ⟨[("a_b_x", ⟨true, false, none, false⟩)], []⟩ "a/b"
        "root" ["f.safetensors"] "x" "checkpoint").1 =
      StartResult.started "a_b_x" := by
  have h := c5_start_conflict_iff_handle_not_done
    ⟨[("a_b_x", ⟨true, false, none, false⟩)], []⟩ "a/b" "root"
    ["f.safetensors"] "x" "checkpoint" (by decide) (by decide) (by decide)
  have hnc : (downloadModelHandler ⟨[("a_b_x", ⟨true, false, none, false⟩)], []⟩
      "a/b" "root" ["f.safetensors"] "x" "checkpoint").1 ≠
      StartResult.conflict := by
    intro hc
    obtain ⟨t, hsome, hdone⟩ := h.1.mp hc
    have hid : deriveTaskId "a/b" "x" = "a_b_x" := by decide
    rw [hid] at hsome
    simp [lookupA] at hsome
    subst hsome
    exact absurd hdone (by decide)
  exact (h.2 hnc).1

/-- All fetches succeeding, the download loop returns one cache path per
requested file. -/
theorem fetchAll_ok (env : DlEnv) (repo folder : String) (files : List String)
    (h : ∀ f ∈ files, ∃ p, env.fetch repo (remotePath folder f) = .ok p) :
    ∃ ps, fetchAll env repo folder files = .ok ps ∧ ps.length = files.length := by
  induction files with
  | nil => exact ⟨[], rfl, rfl⟩
  | cons f rest ih =>
    obtain ⟨p, hp⟩ := h f (by simp)
    obtain ⟨ps, hps, hlen⟩ := ih (fun g hg => h g (by simp [hg]))
    exact ⟨p :: ps, by simp [fetchAll, hp, hps, Except.map], by simp [hlen]⟩

/-- C6 (amended): with the download tool present and all fetches and shard
loads succeeding, the output of `download_and_merge` lands at
`outputDir/outputName.<ext>` where `<ext>` is the LOWER-CASED extension of
the first requested file (`.safetensors` when the first file has none) —
not the extension verbatim, see the counterexample — and when more than
one file is requested the operation fails with the unsupported-merge
error exactly when that extension is not `.safetensors`. -/
theorem c6_output_ext_and_merge_guard (env : DlEnv) (repo folder : String)
    (files : List String) (outDir outName : String)
    (hcli : env.cliAvailable = true)
    (hfetch : ∀ f ∈ files, ∃ p, env.fetch repo (remotePath folder f) = .ok p)
    (hload : ∀ p, (env.tensors p).isSome)
    (hne : files ≠ []) :
    (∀ out, downloadAndMerge env repo folder files outDir outName = .ok out →
      out.path = outDir ++ "/" ++ outName ++ claimedExt files) ∧
    (1 < files.length →
      (downloadAndMerge env repo folder files outDir outName =
          .error "Only safetensors files can be merged." ↔
        claimedExt files ≠ ".safetensors")) := by
  obtain ⟨ps, hps, hlen⟩ := fetchAll_ok env repo folder files hfetch
  cases files with
  | nil => exact absurd rfl hne
  | cons f rest =>
    have hclaim : claimedExt (f :: rest) =
        lowerStr (if (suffixOf f.toList).asString = "" then ".safetensors"
                  else (suffixOf f.toList).asString) := rfl
    cases rest with
    | nil =>
      refine ⟨?_, by intro hgt; exact absurd hgt (by simp)⟩
      intro out hout
      cases ps with
      | nil => simp at hlen
      | cons q qs =>
        by_cases hdir : env.targetIsDir
        · simp [downloadAndMerge, hcli, hps, hdir] at hout
        · by_cases hsym : env.symlinkOk
          · simp [downloadAndMerge, hcli, hps, hdir, hsym] at hout
            rw [← hout]
            simp [DlOutcome.path, hclaim]
          · simp [downloadAndMerge, hcli, hps, hdir, hsym] at hout
            rw [← hout]
            simp [DlOutcome.path, hclaim]
    | cons g rest2 =>
      by_cases hE : claimedExt (f :: g :: rest2) = ".safetensors"
      · obtain ⟨t, ht, _⟩ := mergeLoad_ok env.tensors (sortStrings ps) emptyTM
          (fun p _ => hload p)
        have hE2 : lowerStr (if (suffixOf f.data).asString = "" then
            ".safetensors" else (suffixOf f.data).asString) = ".safetensors" := hE
        have hrun : downloadAndMerge env repo folder (f :: g :: rest2) outDir
            outName = .ok (.merged (outDir ++ "/" ++ outName ++
              ".safetensors") t) := by
          simp [downloadAndMerge, hcli, hps, mergeFiles, ht, hE2]
        refine ⟨?_, fun _ => ?_⟩
        · intro out hout
          rw [hrun] at hout
          injection hout with hinj
          subst hinj
          simp [DlOutcome.path, hE]
        · rw [hrun]
          simp [hE]
      · have hE2 : ¬ lowerStr (if (suffixOf f.data).asString = "" then
            ".safetensors" else (suffixOf f.data).asString) = ".safetensors" := hE
        have hrun : downloadAndMerge env repo folder (f :: g :: rest2) outDir
            outName = .error "Only safetensors files can be merged." := by
          simp [downloadAndMerge, hcli, hps, hE2]
        refine ⟨?_, fun _ => ?_⟩
        · intro out hout
          rw [hrun] at hout
          simp at hout
        · rw [hrun]
          simp [hE]

/-- Witness for C6: two GGUF files ask for a merge with extension
`.gguf`, which fails with the unsupported-merge error. -/
theorem c6_output_ext_and_merge_guard_witness :
    downloadAndMerge demoEnv "u/r" "root" ["a.GGUF", "b.gguf"] "d" "n" =
      .error "Only safetensors files can be merged." := by
  have h := c6_output_ext_and_merge_guard demoEnv "u/r" "root"
    ["a.GGUF", "b.gguf"] "d" "n" rfl
    (fun f _ => ⟨remotePath "root" f, rfl⟩) (fun _ => rfl) (by decide)
  exact (h.2 (by decide)).mpr (by decide)

/-- `takeWhile` swallows a block that wholly satisfies `p` and stops at the
first failing element. -/
theorem takeWhile_append_stop {p : Char → Bool} {xs ys : List Char} {y : Char}
    (hall : ∀ a ∈ xs, p a = true) (hy : p y = false) :
    (xs ++ y :: ys).takeWhile p = xs := by
  induction xs with
  | nil => simp [List.takeWhile_cons, hy]
  | cons a as ih =>
    have ha : p a = true := hall a (by simp)
    simp [List.takeWhile_cons, ha, ih (fun b hb => hall b (by simp [hb]))]

/-- Stripping a suffix that the normaliser maps onto `sfx` from an
explicit concatenation. -/
theorem dropSuffixNorm_append (norm : Char → Char) (sfx pre e : List Char)
    (he : e.map norm = sfx) :
    dropSuffixNorm norm sfx (pre ++ e) = some pre := by
  have hlen : e.length = sfx.length := by
    have h := congrArg List.length he
    simpa using h
  have harith : (pre ++ e).length - sfx.length = pre.length := by
    rw [List.length_append, hlen]
    omega
  rw [dropSuffixNorm, if_pos]
  · rw [harith, List.take_left]
  · refine ⟨?_, ?_⟩
    · rw [List.length_append, hlen]
      exact Nat.le_add_left sfx.length pre.length
    · rw [harith, List.drop_left]
      exact he

/-- The reversed-stem scan on an explicitly composed reversed stem
`rev(M) ++ "-fo-" ++ rev(N) ++ "-" ++ rev(base)` recovers the parts. -/
theorem splitMatchRev_parts (norm : Char → Char) (baseL nL mL : List Char)
    (hb : baseL ≠ []) (hn : nL ≠ []) (hm : mL ≠ [])
    (hnd : ∀ c ∈ nL, c.isDigit = true) (hmd : ∀ c ∈ mL, c.isDigit = true)
    (hof : (['-', 'f', 'o', '-'] : List Char).map norm = "-fo-".toList) :
    splitMatchRev norm
      (mL.reverse ++ '-' :: 'f' :: 'o' :: '-' :: (nL.reverse ++ '-' :: baseL.reverse)) =
      some (baseL, nL, mL) := by
  have htkM : (mL.reverse ++ '-' :: 'f' :: 'o' :: '-' ::
      (nL.reverse ++ '-' :: baseL.reverse)).takeWhile Char.isDigit = mL.reverse :=
    @takeWhile_append_stop Char.isDigit mL.reverse
      ('f' :: 'o' :: '-' :: (nL.reverse ++ '-' :: baseL.reverse)) '-'
      (fun a ha => hmd a (List.mem_reverse.mp ha)) (by decide)
  have htkN : (nL.reverse ++ '-' :: baseL.reverse).takeWhile Char.isDigit =
      nL.reverse :=
    @takeWhile_append_stop Char.isDigit nL.reverse baseL.reverse '-'
      (fun a ha => hnd a (List.mem_reverse.mp ha)) (by decide)
  have hmne : (mL.reverse).isEmpty = false := by simpa using hm
  have hnne : (nL.reverse).isEmpty = false := by simpa using hn
  have hbne : (baseL.reverse).isEmpty = false := by simpa using hb
  simp only [splitMatchRev, htkM, hmne, Bool.false_eq_true, if_false,
    List.drop_left]
  rw [if_pos]
  · rw [show ('-' :: 'f' :: 'o' :: '-' :: (nL.reverse ++
        '-' :: baseL.reverse)).drop 4 = nL.reverse ++ '-' :: baseL.reverse
        from rfl, htkN]
    rw [if_neg (by simp [hnne])]
    rw [List.drop_left]
    simp [hbne, List.reverse_reverse]
  · refine ⟨by simp, ?_⟩
    rw [show ('-' :: 'f' :: 'o' :: '-' :: (nL.reverse ++
        '-' :: baseL.reverse)).take 4 = ['-', 'f', 'o', '-'] from rfl]
    exact hof

/-- The split matcher on an explicitly composed
`<base>-<N>-of-<M><ext>` input (digit strings `N`, `M`, extension any
case variant of `.safetensors`) recovers exactly the three parts. -/
theorem splitMatch_parts (baseL nL mL extL : List Char)
    (hb : baseL ≠ []) (hn : nL ≠ []) (hm : mL ≠ [])
    (hnd : ∀ c ∈ nL, c.isDigit = true) (hmd : ∀ c ∈ mL, c.isDigit = true)
    (hext : toLowerL extL = ".safetensors".toList) :
    splitMatch (baseL ++ '-' :: nL ++ '-' :: 'o' :: 'f' :: '-' :: mL ++ extL) =
      some (baseL, nL, mL) := by
  have hFL : baseL ++ '-' :: nL ++ '-' :: 'o' :: 'f' :: '-' :: mL ++ extL =
      (baseL ++ '-' :: nL ++ '-' :: 'o' :: 'f' :: '-' :: mL) ++ extL := by
    simp [List.append_assoc]
  have hrevpre : (baseL ++ '-' :: nL ++ '-' :: 'o' :: 'f' :: '-' :: mL).reverse =
      mL.reverse ++ '-' :: 'f' :: 'o' :: '-' ::
        (nL.reverse ++ '-' :: baseL.reverse) := by
    simp
  rw [hFL]
  simp only [splitMatch, splitMatchGen]
  rw [dropSuffixNorm_append lowerChar (".safetensors".toList) _ extL hext]
  show splitMatchRev lowerChar
      (baseL ++ '-' :: nL ++ '-' :: 'o' :: 'f' :: '-' :: mL).reverse =
    some (baseL, nL, mL)
  rw [hrevpre]
  exact splitMatchRev_parts lowerChar baseL nL mL hb hn hm hnd hmd (by decide)

/-- `asString` undoes `toList`. -/
theorem asString_toList (s : String) : s.toList.asString = s := by
  cases s
  rfl

/-- `toList` undoes `asString`. -/
theorem toList_asString (l : List Char) : l.asString.toList = l := rfl

/-- A non-empty string has a non-empty character list. -/
theorem toList_ne_nil {s : String} (h : s ≠ "") : s.toList ≠ [] := by
  cases s with
  | mk d =>
    intro hd
    apply h
    have hd2 : d = [] := hd
    rw [hd2]

/-- C7: for every filename of the split form `<base>-<N>-of-<M>.<ext>`
(`N`, `M` non-empty digit strings, `<ext>` any case variant of
`.safetensors`), `scan_repo`'s per-file classification takes the
split branch — producing a split group whose shard total is the numeric
value of `M`, whatever `N` is — and the variant-suffix extraction is not
applied (only the `.single` branch carries a variant). -/
theorem c7_split_detection_total_is_m (base n m ext : String)
    (hb : base ≠ "") (hn : n ≠ "") (hm : m ≠ "")
    (hnd : ∀ c ∈ n.toList, c.isDigit = true)
    (hmd : ∀ c ∈ m.toList, c.isDigit = true)
    (hext : lowerStr ext = ".safetensors") :
    classifySafetensors (base ++ "-" ++ n ++ "-of-" ++ m ++ ext) =
      .split base (digitsToNat m.toList) := by
  have hextL : toLowerL ext.toList = ".safetensors".toList := by
    have h := congrArg String.toList hext
    rw [lowerStr, toList_asString] at h
    exact h
  have hlist : (base ++ "-" ++ n ++ "-of-" ++ m ++ ext).toList =
      base.toList ++ '-' :: n.toList ++ '-' :: 'o' :: 'f' :: '-' ::
        m.toList ++ ext.toList := by
    simp [String.toList, String.data_append, List.append_assoc]
  rw [classifySafetensors, hlist,
    splitMatch_parts base.toList n.toList m.toList ext.toList
      (toList_ne_nil hb) (toList_ne_nil hn) (toList_ne_nil hm) hnd hmd hextL]
  show STClass.split (List.asString (String.toList base))
      (digitsToNat (String.toList m)) = _
  rw [asString_toList]

/-- Every character is either fixed by `lowerChar` or an uppercase letter
paired with its image in `ucPairs`. -/
theorem lowerChar_pairs (c : Char) :
    lowerChar c = c ∨ (c, lowerChar c) ∈ ucPairs := by
  unfold lowerChar
  split
  all_goals first
    | (left; rfl)
    | decide

/-- `lowerChar` is idempotent. -/
theorem lowerChar_idem (c : Char) : lowerChar (lowerChar c) = lowerChar c := by
  rcases lowerChar_pairs c with h | h
  · rw [h]
    exact h
  · exact (show ∀ pr ∈ ucPairs, lowerChar pr.2 = pr.2 by decide)
      (c, lowerChar c) h

/-- `lowerChar` preserves digit-ness. -/
theorem isDigit_lowerChar (c : Char) : (lowerChar c).isDigit = c.isDigit := by
  rcases lowerChar_pairs c with h | h
  · rw [h]
  · exact (show ∀ pr ∈ ucPairs, pr.2.isDigit = pr.1.isDigit by decide)
      (c, lowerChar c) h

/-- `lowerChar` fixes the separator characters `-`, `_` and `.` and never
produces them from other characters. -/
theorem lowerChar_eq_iff_of_sep (c d : Char)
    (hd : d = '-' ∨ d = '_' ∨ d = '.') : (lowerChar c = d) ↔ (c = d) := by
  rcases lowerChar_pairs c with h | h
  · rw [h]
  · have hall : ∀ pr ∈ ucPairs,
        (pr.2 = '-' ↔ pr.1 = '-') ∧ (pr.2 = '_' ↔ pr.1 = '_') ∧
          (pr.2 = '.' ↔ pr.1 = '.') := by decide
    rcases hd with rfl | rfl | rfl
    · exact (hall (c, lowerChar c) h).1
    · exact (hall (c, lowerChar c) h).2.1
    · exact (hall (c, lowerChar c) h).2.2

/-- `lowerChar` preserves membership in the `[a-z0-9_]` IGNORECASE class. -/
theorem isWordChar_lowerChar (c : Char) :
    isWordChar (lowerChar c) = isWordChar c := by
  rcases lowerChar_pairs c with h | h
  · rw [h]
  · exact (show ∀ pr ∈ ucPairs, isWordChar pr.2 = isWordChar pr.1 by decide)
      (c, lowerChar c) h

/-- `toLowerL` is idempotent. -/
theorem toLowerL_idem (l : List Char) : toLowerL (toLowerL l) = toLowerL l := by
  simp only [toLowerL, List.map_map]
  exact List.map_congr_left (fun c _ => lowerChar_idem c)

/-- `lowerChar` preserves the `[-_]` separator class of
`_extract_precision`. -/
theorem isSepDash_lowerChar (c : Char) :
    isSepDash (lowerChar c) = isSepDash c := by
  rcases lowerChar_pairs c with h | h
  · rw [h]
  · exact (show ∀ pr ∈ ucPairs, isSepDash pr.2 = isSepDash pr.1 by decide)
      (c, lowerChar c) h

/-- The precision-token prefix matcher commutes with lower-casing: on a
lower-cased input it matches at the same position with the same length,
so the captured prefix is the lower-cased capture. -/
theorem tokenPfx_lower (t : List Char) :
    tokenPfx (toLowerL t) = (tokenPfx t).map toLowerL := by
  rw [tokenPfx, tokenPfx, toLowerL_idem]
  cases h : tokenPfxLen (toLowerL t) with
  | none => simp [h]
  | some k => simp [h, toLowerL, List.map_take]

/-- `dashLower` ignores prior lower-casing. -/
theorem dashLower_lower (x : List Char) : dashLower (toLowerL x) = dashLower x := by
  simp [dashLower, toLowerL_idem]

/-- The cons-prefix bookkeeping of the leftmost scan does not change the
token component. -/
theorem scanSepToken_cons_bind {α : Type} (sep : Char → Bool)
    (tokF : List Char → Bool) (c : Char) (rest : List Char)
    (g : List Char → Option α) :
    (match scanSepToken sep tokF rest with
      | some (b, c1, t) => some (c :: b, c1, t)
      | none => none).bind (fun r => g r.2.2) =
      (scanSepToken sep tokF rest).bind (fun r => g r.2.2) := by
  cases h : scanSepToken sep tokF rest with
  | none => rfl
  | some r =>
    obtain ⟨b, c1, t⟩ := r
    rfl

/-- `_extract_precision` is insensitive to lower-casing its input. -/
theorem extractPrecisionL_lower (f : List Char) :
    extractPrecisionL (toLowerL f) = extractPrecisionL f := by
  induction f with
  | nil => rfl
  | cons c rest ih =>
    have hsep : isSepDash (lowerChar c) = isSepDash c := isSepDash_lowerChar c
    have hpf : (tokenPfx (toLowerL rest)).isSome = (tokenPfx rest).isSome := by
      rw [tokenPfx_lower]
      cases tokenPfx rest <;> rfl
    simp only [extractPrecisionL] at ih ⊢
    show ((scanSepToken isSepDash (fun t => (tokenPfx t).isSome)
        (lowerChar c :: toLowerL rest)).bind (fun r => tokenPfx r.2.2)).map
          dashLower =
      ((scanSepToken isSepDash (fun t => (tokenPfx t).isSome)
        (c :: rest)).bind (fun r => tokenPfx r.2.2)).map dashLower
    simp only [scanSepToken, hsep, hpf]
    by_cases hc : (isSepDash c && (tokenPfx rest).isSome) = true
    · simp only [hc, if_true, Option.some_bind]
      rw [tokenPfx_lower]
      cases htp : tokenPfx rest with
      | none => rfl
      | some tok => simp [dashLower_lower]
    · simp only [hc, Bool.false_eq_true, if_false]
      rw [scanSepToken_cons_bind, scanSepToken_cons_bind]
      exact ih

/-- C9: per-file precision extraction is case-insensitive —
`extractPrecision(f)` equals `extractPrecision` applied to the lower-cased
form of `f`. -/
theorem c9_extract_precision_case_insensitive (f : String) :
    extractPrecision f = extractPrecision (lowerStr f) := by
  have h : extractPrecisionL (lowerStr f).toList = extractPrecisionL f.toList := by
    rw [lowerStr, toList_asString]
    exact extractPrecisionL_lower f.toList
  rw [extractPrecision, extractPrecision, h]

/-- Witness for C7 at `model-00001-of-00003.SafeTensors`. -/
theorem c7_split_detection_total_is_m_witness :
    (("model" : String) ≠ "" ∧ ("00001" : String) ≠ "" ∧
      ("00003" : String) ≠ "" ∧
      (∀ c ∈ ("00001" : String).toList, c.isDigit = true) ∧
      (∀ c ∈ ("00003" : String).toList, c.isDigit = true) ∧
      lowerStr ".SafeTensors" = ".safetensors") ∧
    classifySafetensors ("model" ++ "-" ++ "00001" ++ "-of-" ++ "00003" ++
        ".SafeTensors") = .split "model" (digitsToNat ("00003" : String).toList) :=
  ⟨⟨by decide, by decide, by decide, by decide, by decide, by decide⟩,
    c7_split_detection_total_is_m "model" "00001" "00003" ".SafeTensors"
      (by decide) (by decide) (by decide) (by decide) (by decide) (by decide)⟩

/-- Soundness and leftmost-ness of the end-anchored separator-token scan:
a hit decomposes the input at the first separator position whose remainder
matches the token pattern. -/
theorem scanSepToken_eq_some (sep : Char → Bool) (tokF : List Char → Bool)
    (s : List Char) :
    ∀ b c t, scanSepToken sep tokF s = some (b, c, t) →
      s = b ++ c :: t ∧ sep c = true ∧ tokF t = true ∧
        ∀ b1 c1 t1, s = b1 ++ c1 :: t1 → sep c1 = true → tokF t1 = true →
          b.length ≤ b1.length := by
  induction s with
  | nil => intro b c t h; simp [scanSepToken] at h
  | cons x xs ih =>
    intro b c t h
    simp only [scanSepToken] at h
    by_cases hx : (sep x && tokF xs) = true
    · rw [if_pos hx] at h
      simp only [Option.some.injEq, Prod.mk.injEq] at h
      obtain ⟨rfl, rfl, rfl⟩ := h
      obtain ⟨hsx, htx⟩ : sep x = true ∧ tokF xs = true := by simpa using hx
      exact ⟨rfl, hsx, htx, fun b1 c1 t1 _ _ _ => Nat.zero_le _⟩
    · rw [if_neg hx] at h
      cases hs : scanSepToken sep tokF xs with
      | none => rw [hs] at h; simp at h
      | some r =>
        obtain ⟨b2, c2, t2⟩ := r
        rw [hs] at h
        simp only [Option.some.injEq, Prod.mk.injEq] at h
        obtain ⟨rfl, rfl, rfl⟩ := h
        obtain ⟨hdec, hsep2, htok2, hmin⟩ := ih b2 c2 t2 hs
        refine ⟨by rw [hdec]; rfl, hsep2, htok2, ?_⟩
        intro b1 c1 t1 hdec1 hsep1 htok1
        cases b1 with
        | nil =>
          simp only [List.nil_append, List.cons.injEq] at hdec1
          obtain ⟨rfl, rfl⟩ := hdec1
          exact absurd (by simp [hsep1, htok1]) hx
        | cons x1 b1t =>
          simp only [List.cons_append, List.cons.injEq] at hdec1
          obtain ⟨rfl, hdec2⟩ := hdec1
          simpa using Nat.succ_le_succ (hmin b1t c1 t1 hdec2 hsep1 htok1)

/-- Completeness of the scan: a miss means no decomposition at any
separator position matches the token pattern. -/
theorem scanSepToken_eq_none (sep : Char → Bool) (tokF : List Char → Bool)
    (s : List Char) :
    scanSepToken sep tokF s = none →
      ∀ b c t, s = b ++ c :: t → sep c = true → ¬ tokF t = true := by
  induction s with
  | nil =>
    intro _ b c t hdecomp
    cases b <;> simp at hdecomp
  | cons x xs ih =>
    intro h b c t hdecomp hsep htok
    simp only [scanSepToken] at h
    by_cases hx : (sep x && tokF xs) = true
    · rw [if_pos hx] at h; simp at h
    · rw [if_neg hx] at h
      cases hs : scanSepToken sep tokF xs with
      | some r =>
        obtain ⟨b2, c2, t2⟩ := r
        rw [hs] at h
        simp at h
      | none =>
        cases b with
        | nil =>
          simp only [List.nil_append, List.cons.injEq] at hdecomp
          obtain ⟨rfl, rfl⟩ := hdecomp
          exact hx (by simp [hsep, htok])
        | cons x1 b1 =>
          simp only [List.cons_append, List.cons.injEq] at hdecomp
          exact ih hs b1 c t hdecomp.2 hsep htok

/-- Taking as many elements as `takeWhile` keeps recovers `takeWhile`. -/
theorem take_takeWhile_length (p : Char → Bool) (l : List Char) :
    l.take (l.takeWhile p).length = l.takeWhile p := by
  induction l with
  | nil => rfl
  | cons a as ih =>
    by_cases h : p a
    · simp [List.takeWhile_cons, h, ih]
    · simp [List.takeWhile_cons, h]

/-- `tokenFullV` only looks at the lower-cased input. -/
theorem tokenFullV_congr {x y : List Char} (h : toLowerL x = toLowerL y) :
    tokenFullV x = tokenFullV y := by
  simp only [tokenFullV, h]

/-- A lower-cased shape `fp<digit><word-tail>` (or `bf…`) is a full
variant-token match. -/
theorem tokenFullV_fp_shape (x : List Char) (pre : List Char) (c : Char)
    (w : List Char) (hpre : pre = "fp".toList ∨ pre = "bf".toList)
    (hx : toLowerL x = pre ++ c :: w)
    (hc : c.isDigit = true) (hw : ∀ a ∈ w, isWordChar a = true) :
    tokenFullV x = true := by
  rcases hpre with rfl | rfl
  · simp [tokenFullV, hx, List.isPrefixOf, hc, List.all_eq_true]
    exact hw
  · simp [tokenFullV, hx, List.isPrefixOf, hc, List.all_eq_true]
    exact hw

/-- A lower-cased shape `int<digits>` is a full variant-token match. -/
theorem tokenFullV_int_shape (x : List Char) (c : Char) (w : List Char)
    (hx : toLowerL x = "int".toList ++ c :: w)
    (hc : c.isDigit = true) (hw : ∀ a ∈ w, a.isDigit = true) :
    tokenFullV x = true := by
  simp [tokenFullV, hx, List.isPrefixOf, hc, List.all_eq_true]
  exact hw

/-- Each literal alternative is a full variant-token match. -/
theorem tokenFullV_lit (x L : List Char) (hx : toLowerL x = L)
    (hLlow : toLowerL L = L)
    (hL : L ∈ ["bnb4bit".toList, "bnb-4bit".toList, "bnb_4bit".toList,
               "bnb8bit".toList, "bnb-8bit".toList, "bnb_8bit".toList,
               "nf4".toList, "nvfp4".toList]) : tokenFullV x = true := by
  rw [tokenFullV_congr (hx.trans hLlow.symm)]
  fin_cases hL <;> decide

/-- A literal alternative that prefixes the lower-cased input yields a
non-empty full-token take. -/
theorem tokenPfx_lit_branch (t L : List Char) (k : Nat)
    (hpre : L.isPrefixOf (toLowerL t) = true)
    (hlen : L.length = k) (hk0 : k ≠ 0)
    (hLlow : toLowerL L = L) (hLne : L ≠ [])
    (hL : L ∈ ["bnb4bit".toList, "bnb-4bit".toList, "bnb_4bit".toList,
               "bnb8bit".toList, "bnb-8bit".toList, "bnb_8bit".toList,
               "nf4".toList, "nvfp4".toList]) :
    t.take k ≠ [] ∧ tokenFullV (t.take k) = true := by
  have hprefix : L <+: toLowerL t := List.isPrefixOf_iff_prefix.mp hpre
  have hpre2 : L = (toLowerL t).take k := by
    have hp := List.prefix_iff_eq_take.mp hprefix
    rw [hlen] at hp
    exact hp
  have hmapk : toLowerL (t.take k) = (toLowerL t).take k := by
    simp [toLowerL, List.map_take]
  constructor
  · rw [Ne, List.take_eq_nil_iff]
    push_neg
    refine ⟨hk0, fun hteq => ?_⟩
    have hLnil : L = [] := by
      have hnil : toLowerL t = [] := by simp [toLowerL, hteq]
      rw [hnil] at hprefix
      simpa using hprefix
    exact hLne hLnil
  · exact tokenFullV_lit (t.take k) L (by rw [hmapk, ← hpre2]) hLlow hL

/-- When the precision-token matcher fires, the captured prefix is a
non-empty prefix of the input and a full token of the pattern family. -/
theorem tokenPfx_sound (t tok : List Char) (h : tokenPfx t = some tok) :
    tok <+: t ∧ tok ≠ [] ∧ tokenFullV tok = true := by
  rw [tokenPfx] at h
  cases hk : tokenPfxLen (toLowerL t) with
  | none => rw [hk] at h; simp at h
  | some k =>
    rw [hk] at h
    simp only [Option.map_some', Option.some.injEq] at h
    subst h
    have hmapk : toLowerL (t.take k) = (toLowerL t).take k := by
      simp [toLowerL, List.map_take]
    have hne_of : ∀ n : Nat, n ≠ 0 → toLowerL t ≠ [] → t.take n ≠ [] := by
      intro n hn ht
      rw [Ne, List.take_eq_nil_iff]
      push_neg
      refine ⟨hn, ?_⟩
      intro hteq
      exact ht (by simp [toLowerL, hteq])
    refine ⟨List.take_prefix k t, ?_⟩
    simp only [tokenPfxLen] at hk
    split_ifs at hk with h1 h2 h3 h4 h5 h6 h7 h8
    · -- fp/bf branch
      rw [Bool.and_eq_true] at h1
      obtain ⟨hor, hmatch⟩ := h1
      simp only [Option.some.injEq] at hk
      cases hdrop : (toLowerL t).drop 2 with
      | nil => rw [hdrop] at hmatch; simp at hmatch
      | cons c r =>
        rw [hdrop] at hmatch
        have hcd : c.isDigit = true := hmatch
        have hcw : isWordChar c = true := by simp [isWordChar, hcd]
        obtain ⟨pre, hprekind, hprefix⟩ :
            ∃ pre, (pre = "fp".toList ∨ pre = "bf".toList) ∧
              pre <+: toLowerL t := by
          rw [Bool.or_eq_true] at hor
          rcases hor with hfp | hbf
          · exact ⟨"fp".toList, Or.inl rfl, List.isPrefixOf_iff_prefix.mp hfp⟩
          · exact ⟨"bf".toList, Or.inr rfl, List.isPrefixOf_iff_prefix.mp hbf⟩
        have hlenpre : pre.length = 2 := by
          rcases hprekind with rfl | rfl <;> rfl
        have hpre2 : pre = (toLowerL t).take 2 := by
          have hp := List.prefix_iff_eq_take.mp hprefix
          rw [hlenpre] at hp
          exact hp
        have hTK : (toLowerL t).take k =
            pre ++ c :: (r.takeWhile isWordChar) := by
          rw [← hk, List.take_add, ← hpre2, hdrop]
          congr 1
          rw [show ((c :: r).takeWhile isWordChar).length =
              (c :: (r.takeWhile isWordChar)).length by
            simp [List.takeWhile_cons, hcw]]
          rw [show (c :: r).take (c :: r.takeWhile isWordChar).length =
              (c :: r).take ((r.takeWhile isWordChar).length + 1) by simp]
          simp only [List.take_succ_cons]
          rw [take_takeWhile_length]
        have hne2 : t.take k ≠ [] := by
          apply hne_of k
          · rw [← hk]; omega
          · intro hlt; rw [hlt] at hprefix
            rcases hprekind with rfl | rfl <;> simp at hprefix
        refine ⟨hne2, ?_⟩
        exact tokenFullV_fp_shape (t.take k) pre c (r.takeWhile isWordChar)
          hprekind (by rw [hmapk, hTK]) hcd
          (fun a ha => List.mem_takeWhile_imp ha)
    · -- int branch
      rw [Bool.and_eq_true] at h2
      obtain ⟨hint, hmatch⟩ := h2
      simp only [Option.some.injEq] at hk
      cases hdrop : (toLowerL t).drop 3 with
      | nil => rw [hdrop] at hmatch; simp at hmatch
      | cons c r =>
        rw [hdrop] at hmatch
        have hcd : c.isDigit = true := hmatch
        have hprefix : "int".toList <+: toLowerL t :=
          List.isPrefixOf_iff_prefix.mp hint
        have hpre2 : ("int".toList : List Char) = (toLowerL t).take 3 :=
          List.prefix_iff_eq_take.mp hprefix
        have hTK : (toLowerL t).take k =
            "int".toList ++ c :: (r.takeWhile Char.isDigit) := by
          rw [← hk, List.take_add, ← hpre2, hdrop]
          congr 1
          rw [show ((c :: r).takeWhile Char.isDigit).length =
              (c :: (r.takeWhile Char.isDigit)).length by
            simp [List.takeWhile_cons, hcd]]
          rw [show (c :: r).take (c :: r.takeWhile Char.isDigit).length =
              (c :: r).take ((r.takeWhile Char.isDigit).length + 1) by simp]
          simp only [List.take_succ_cons]
          rw [take_takeWhile_length]
        have hne2 : t.take k ≠ [] := by
          apply hne_of k
          · rw [← hk]; omega
          · intro hlt; rw [hlt] at hprefix; simp at hprefix
        refine ⟨hne2, ?_⟩
        exact tokenFullV_int_shape (t.take k) c (r.takeWhile Char.isDigit)
          (by rw [hmapk, hTK]) hcd (fun a ha => List.mem_takeWhile_imp ha)
    · -- bnb-4bit / bnb_4bit
      simp only [Option.some.injEq] at hk
      rw [Bool.or_eq_true] at h3
      rcases h3 with hlit | hlit
      · exact tokenPfx_lit_branch t "bnb-4bit".toList k hlit
          ((by decide : ("bnb-4bit".toList : List Char).length = 8).trans hk)
          (by omega) (by decide) (by decide) (by decide)
      · exact tokenPfx_lit_branch t "bnb_4bit".toList k hlit
          ((by decide : ("bnb_4bit".toList : List Char).length = 8).trans hk)
          (by omega) (by decide) (by decide) (by decide)
    · -- bnb4bit
      simp only [Option.some.injEq] at hk
      exact tokenPfx_lit_branch t "bnb4bit".toList k h4
        ((by decide : ("bnb4bit".toList : List Char).length = 7).trans hk)
        (by omega) (by decide) (by decide) (by decide)
    · -- bnb-8bit / bnb_8bit
      simp only [Option.some.injEq] at hk
      rw [Bool.or_eq_true] at h5
      rcases h5 with hlit | hlit
      · exact tokenPfx_lit_branch t "bnb-8bit".toList k hlit
          ((by decide : ("bnb-8bit".toList : List Char).length = 8).trans hk)
          (by omega) (by decide) (by decide) (by decide)
      · exact tokenPfx_lit_branch t "bnb_8bit".toList k hlit
          ((by decide : ("bnb_8bit".toList : List Char).length = 8).trans hk)
          (by omega) (by decide) (by decide) (by decide)
    · -- bnb8bit
      simp only [Option.some.injEq] at hk
      exact tokenPfx_lit_branch t "bnb8bit".toList k h6
        ((by decide : ("bnb8bit".toList : List Char).length = 7).trans hk)
        (by omega) (by decide) (by decide) (by decide)
    · -- nf4
      simp only [Option.some.injEq] at hk
      exact tokenPfx_lit_branch t "nf4".toList k h7
        ((by decide : ("nf4".toList : List Char).length = 3).trans hk)
        (by omega) (by decide) (by decide) (by decide)
    · -- nvfp4
      simp only [Option.some.injEq] at hk
      exact tokenPfx_lit_branch t "nvfp4".toList k h8
        ((by decide : ("nvfp4".toList : List Char).length = 5).trans hk)
        (by omega) (by decide) (by decide) (by decide)

/-- Completeness of the precision-token matcher: if any non-empty prefix
of `t` is a full token of the pattern family, the matcher fires on `t`. -/
theorem tokenPfx_complete (t tok : List Char) (hpre : tok <+: t)
    (hfull : tokenFullV tok = true) : (tokenPfx t).isSome = true := by
  rw [tokenPfx]
  cases hk : tokenPfxLen (toLowerL t) with
  | some k => rfl
  | none =>
    exfalso
    have hmap : toLowerL tok <+: toLowerL t := hpre.map lowerChar
    simp only [tokenPfxLen] at hk
    split_ifs at hk with h1 h2 h3 h4 h5 h6 h7 h8
    simp only [tokenFullV, Bool.or_eq_true, Bool.and_eq_true,
      decide_eq_true_eq] at hfull
    rcases hfull with (((⟨hor, hmatch⟩ | ⟨hint, hmatch⟩) | hlit) | hlit) | hlit
    · -- fp/bf token
      cases hd : (toLowerL tok).drop 2 with
      | nil => rw [hd] at hmatch; simp at hmatch
      | cons c r =>
        rw [hd] at hmatch
        obtain ⟨u, hu⟩ := (hmap.drop 2)
        rw [hd] at hu
        apply h1
        rw [Bool.and_eq_true]
        constructor
        · rw [Bool.or_eq_true]
          rcases hor with hfp | hbf
          · exact Or.inl (List.isPrefixOf_iff_prefix.mpr
              ((List.isPrefixOf_iff_prefix.mp hfp).trans hmap))
          · exact Or.inr (List.isPrefixOf_iff_prefix.mpr
              ((List.isPrefixOf_iff_prefix.mp hbf).trans hmap))
        · rw [← hu]
          obtain ⟨hcd, h2w⟩ : c.isDigit = true ∧ r.all isWordChar = true := by
            simpa using hmatch
          exact hcd
    · -- int token
      cases hd : (toLowerL tok).drop 3 with
      | nil => rw [hd] at hmatch; simp at hmatch
      | cons c r =>
        rw [hd] at hmatch
        obtain ⟨u, hu⟩ := (hmap.drop 3)
        rw [hd] at hu
        apply h2
        rw [Bool.and_eq_true]
        refine ⟨List.isPrefixOf_iff_prefix.mpr
          ((List.isPrefixOf_iff_prefix.mp hint).trans hmap), ?_⟩
        rw [← hu]
        obtain ⟨hcd, h2d⟩ : c.isDigit = true ∧ r.all Char.isDigit = true := by
          simpa using hmatch
        exact hcd
    · -- bnb…4bit literals
      rcases hlit with (h | h) | h
      · exact h4 (List.isPrefixOf_iff_prefix.mpr (by rw [← h]; exact hmap))
      · apply h3
        rw [Bool.or_eq_true]
        exact Or.inl (List.isPrefixOf_iff_prefix.mpr (by rw [← h]; exact hmap))
      · apply h3
        rw [Bool.or_eq_true]
        exact Or.inr (List.isPrefixOf_iff_prefix.mpr (by rw [← h]; exact hmap))
    · -- bnb…8bit literals
      rcases hlit with (h | h) | h
      · exact h6 (List.isPrefixOf_iff_prefix.mpr (by rw [← h]; exact hmap))
      · apply h5
        rw [Bool.or_eq_true]
        exact Or.inl (List.isPrefixOf_iff_prefix.mpr (by rw [← h]; exact hmap))
      · apply h5
        rw [Bool.or_eq_true]
        exact Or.inr (List.isPrefixOf_iff_prefix.mpr (by rw [← h]; exact hmap))
    · -- nf4 / nvfp4
      rcases hlit with h | h
      · exact h7 (List.isPrefixOf_iff_prefix.mpr (by rw [← h]; exact hmap))
      · exact h8 (List.isPrefixOf_iff_prefix.mpr (by rw [← h]; exact hmap))

/-- The `[._-]` separator class, propositionally. -/
theorem isSepDotUnd_iff (c : Char) :
    isSepDotUnd c = true ↔ (c = '.' ∨ c = '_' ∨ c = '-') := by
  simp [isSepDotUnd]
  tauto

/-- The `[-_]` separator class, propositionally. -/
theorem isSepDash_iff (c : Char) :
    isSepDash c = true ↔ (c = '-' ∨ c = '_') := by
  simp [isSepDash]

/-- C8 (amended): the variant-suffix extraction recognises a trailing
suffix of the stem after a `.`, `_` or `-` separator (leftmost such
position) and returns it lower-cased with underscores PRESERVED (not
rewritten to hyphens — see the counterexample); the per-file precision
extraction recognises a token of the pattern family after a `-` or `_`
separator only (no `.`), anywhere in the filename (leftmost separator with
a token match, not necessarily trailing), and returns the captured token
lower-cased with underscores rewritten to hyphens; and both return `none`
exactly when no such match exists. -/
theorem c8_variant_and_precision_characterisation :
    (∀ f b v, splitSafetensorsNameL f = (b, some v) →
      ∃ c t, stemOf f = b ++ c :: t ∧ (c = '.' ∨ c = '_' ∨ c = '-') ∧
        tokenFullV t = true ∧ v = toLowerL t ∧
        ∀ b1 c1 t1, stemOf f = b1 ++ c1 :: t1 →
          (c1 = '.' ∨ c1 = '_' ∨ c1 = '-') → tokenFullV t1 = true →
          b.length ≤ b1.length) ∧
    (∀ f b, splitSafetensorsNameL f = (b, none) →
      b = stemOf f ∧
      ∀ b1 c1 t1, stemOf f = b1 ++ c1 :: t1 →
        (c1 = '.' ∨ c1 = '_' ∨ c1 = '-') → ¬ tokenFullV t1 = true) ∧
    (∀ f v, extractPrecisionL f = some v →
      ∃ pre c t tok, f = pre ++ c :: t ∧ (c = '-' ∨ c = '_') ∧
        tok <+: t ∧ tok ≠ [] ∧ tokenFullV tok = true ∧ v = dashLower tok ∧
        ∀ pre1 c1 t1, f = pre1 ++ c1 :: t1 → (c1 = '-' ∨ c1 = '_') →
          (∃ tok1, tok1 <+: t1 ∧ tokenFullV tok1 = true) →
          pre.length ≤ pre1.length) ∧
    (∀ f, extractPrecisionL f = none →
      ∀ pre c t, f = pre ++ c :: t → (c = '-' ∨ c = '_') →
        ∀ tok, tok <+: t → ¬ tokenFullV tok = true) := by
  refine ⟨?_, ?_, ?_, ?_⟩
  · -- variant, hit
    intro f b v h
    rw [splitSafetensorsNameL] at h
    cases hscan : scanSepToken isSepDotUnd tokenFullV (stemOf f) with
    | none => rw [hscan] at h; simp at h
    | some r =>
      obtain ⟨b0, c0, t0⟩ := r
      rw [hscan] at h
      simp only [Prod.mk.injEq, Option.some.injEq] at h
      obtain ⟨rfl, rfl⟩ := h
      obtain ⟨hdec, hsep, htok, hmin⟩ :=
        scanSepToken_eq_some isSepDotUnd tokenFullV (stemOf f) b0 c0 t0 hscan
      refine ⟨c0, t0, hdec, (isSepDotUnd_iff c0).mp hsep, htok, rfl, ?_⟩
      intro b1 c1 t1 hdec1 hsep1 htok1
      exact hmin b1 c1 t1 hdec1 ((isSepDotUnd_iff c1).mpr hsep1) htok1
  · -- variant, miss
    intro f b h
    rw [splitSafetensorsNameL] at h
    cases hscan : scanSepToken isSepDotUnd tokenFullV (stemOf f) with
    | some r =>
      obtain ⟨b0, c0, t0⟩ := r
      rw [hscan] at h
      simp at h
    | none =>
      rw [hscan] at h
      simp only [Prod.mk.injEq] at h
      refine ⟨h.1.symm, ?_⟩
      intro b1 c1 t1 hdec1 hsep1
      exact scanSepToken_eq_none isSepDotUnd tokenFullV (stemOf f) hscan
        b1 c1 t1 hdec1 ((isSepDotUnd_iff c1).mpr hsep1)
  · -- precision, hit
    intro f v h
    rw [extractPrecisionL] at h
    cases hscan : scanSepToken isSepDash (fun t => (tokenPfx t).isSome) f with
    | none => rw [hscan] at h; simp at h
    | some r =>
      obtain ⟨pre0, c0, t0⟩ := r
      rw [hscan] at h
      simp only [Option.some_bind] at h
      cases htp : tokenPfx t0 with
      | none => rw [htp] at h; simp at h
      | some tok =>
        rw [htp] at h
        simp only [Option.some_bind, Option.map_some', Option.some.injEq] at h
        obtain ⟨hdec, hsep, _, hmin⟩ :=
          scanSepToken_eq_some isSepDash (fun t => (tokenPfx t).isSome) f
            pre0 c0 t0 hscan
        obtain ⟨htokpre, htokne, htokfull⟩ := tokenPfx_sound t0 tok htp
        refine ⟨pre0, c0, t0, tok, hdec, (isSepDash_iff c0).mp hsep,
          htokpre, htokne, htokfull, h.symm, ?_⟩
        intro pre1 c1 t1 hdec1 hsep1 hex
        obtain ⟨tok1, htok1pre, htok1full⟩ := hex
        exact hmin pre1 c1 t1 hdec1 ((isSepDash_iff c1).mpr hsep1)
          (tokenPfx_complete t1 tok1 htok1pre htok1full)
  · -- precision, miss
    intro f h pre c t hdec hsep tok hpre
    intro hfull
    rw [extractPrecisionL] at h
    cases hscan : scanSepToken isSepDash (fun t => (tokenPfx t).isSome) f with
    | some r =>
      obtain ⟨pre0, c0, t0⟩ := r
      obtain ⟨_, _, htokF, _⟩ :=
        scanSepToken_eq_some isSepDash (fun t => (tokenPfx t).isSome) f
          pre0 c0 t0 hscan
      rw [hscan] at h
      simp only [Option.some_bind] at h
      cases htp : tokenPfx t0 with
      | none => rw [htp] at htokF; simp at htokF
      | some tok0 => rw [htp] at h; simp at h
    | none =>
      have hnone := scanSepToken_eq_none isSepDash
        (fun t => (tokenPfx t).isSome) f hscan pre c t hdec
        ((isSepDash_iff c).mpr hsep)
      exact hnone (tokenPfx_complete t tok hpre hfull)

/-- Witness for C8 at `model_fp8_e4m3fn.safetensors` (variant hit with the
underscore preserved). -/
theorem c8_variant_and_precision_characterisation_witness :
    splitSafetensorsNameL ("model_fp8_e4m3fn.safetensors".toList) =
      ("model".toList, some ("fp8_e4m3fn".toList)) ∧
    ∃ c t, stemOf ("model_fp8_e4m3fn.safetensors".toList) =
        "model".toList ++ c :: t ∧ (c = '.' ∨ c = '_' ∨ c = '-') ∧
        tokenFullV t = true ∧ ("fp8_e4m3fn".toList : List Char) = toLowerL t ∧
        ∀ b1 c1 t1, stemOf ("model_fp8_e4m3fn.safetensors".toList) =
            b1 ++ c1 :: t1 →
          (c1 = '.' ∨ c1 = '_' ∨ c1 = '-') → tokenFullV t1 = true →
          ("model".toList : List Char).length ≤ b1.length :=
  ⟨by decide,
    c8_variant_and_precision_characterisation.1
      ("model_fp8_e4m3fn.safetensors".toList) ("model".toList)
      ("fp8_e4m3fn".toList) (by decide)⟩

/-- C3 (amended): for every non-split tensor-container group, whatever the
folder and whatever the config lookup would answer, the scanner's
suggestedName is the stem of the group's single file when the group has
exactly one file; otherwise the group's baseName when non-empty, else the
first sorted file's stem (or the literal `model` for an empty group).  The
remote-config lookup (`cfg`, universally quantified and absent from the
right-hand side) and the folder's last path segment are not consulted. -/
theorem c3_nonsplit_suggested_name_rule (cfg : String → Option String)
    (repo_id : String) (files_info : List (String × Nat)) :
    ∀ g ∈ scanRepo cfg repo_id files_info,
      g.file_type = "safetensors" → g.is_split = false →
      g.suggested_name =
        match g.files with
        | [f] => stemStr f.name
        | f :: _ :: _ => if g.base_name ≠ "" then g.base_name else stemStr f.name
        | [] => if g.base_name ≠ "" then g.base_name else "model" := by
  intro g hg hft hsp
  rcases List.mem_append.mp hg with hmem | hmem
  · obtain ⟨p, hp, rfl⟩ := List.mem_map.mp hmem
    simp only [emitST] at hsp ⊢
    rw [hsp]
    simp only [Bool.false_eq_true, if_false]
  · obtain ⟨p, hp, rfl⟩ := List.mem_map.mp hmem
    exact absurd hft (by simp [emitGG])

/-- Witness for C3 at the scan of `sub/model.safetensors`. -/
theorem c3_nonsplit_suggested_name_rule_witness :
    (demoGroup ∈ scanRepo (fun _ => some "cfgname") "u/r"
        [("sub/model.safetensors", 5)] ∧
      demoGroup.file_type = "safetensors" ∧ demoGroup.is_split = false) ∧
    demoGroup.suggested_name =
      (match demoGroup.files with
        | [f] => stemStr f.name
        | f :: _ :: _ =>
          if demoGroup.base_name ≠ "" then demoGroup.base_name
          else stemStr f.name
        | [] => if demoGroup.base_name ≠ "" then demoGroup.base_name
          else "model") :=
  ⟨⟨by decide, by decide, by decide⟩,
    c3_nonsplit_suggested_name_rule (fun _ => some "cfgname") "u/r"
      [("sub/model.safetensors", 5)] demoGroup (by decide) (by decide)
      (by decide)⟩

end HFD


